import Mathlib

/-!
# Family tree: the relationship graph of `Person.cpp`

A shallow embedding of the mutation operations, the destructor and the four traversals
of `src/Person.cpp`.

* A `Person*` that points to an existing object is a value of an address type `P`
  (with decidable equality); a nullable pointer is an `Option P`.
* The heap is a total map `Graph P = P → Person P` from addresses to objects.
* Every member function takes the heap, the receiver `self` (the C++ `this`) and
  its arguments, and returns the new heap (with the `bool` result when it has one).
  Statements are executed in source order, each on the heap left by the previous
  one, so aliasing between `this`, the argument and the linked persons is kept.
* The recursive traversals carry a bound on the depth of the recursion; on a heap with
  finitely many persons they are run with more fuel than there are persons, which is
  shown to be enough.
-/

set_option linter.unusedSectionVars false

namespace FamilyTree

/-- Modelled from the spec: the enumeration `Person::Sex` is declared in `Person.h`,
which is not part of the sources; its two values `MALE` and `FEMALE` are the ones
used by `Person.cpp` and listed by the data model. -/
inductive Sex where
  | MALE
  | FEMALE
deriving DecidableEq, Repr

open Sex

/-- Modelled from the spec: the class `Person` is declared in `Person.h`, which is not
part of the sources. Its data members are the ones `Person.cpp` reads and writes: `sex`,
`name`, `mother` and `father` (in the order of the constructor's initialiser list) and
the vector `children`, kept in insertion order. -/
@[ext]
structure Person (P : Type) where
  sex : Sex
  name : String
  mother : Option P
  father : Option P
  children : List P

/-- The heap: every address holds a person object. -/
abbrev Graph (P : Type) := P → Person P

/-- The constructor `Person::Person(Sex s, const std::string& n)`: no parents, no children. -/
def Person.create {P : Type} (s : Sex) (n : String) : Person P :=
  { sex := s, name := n, mother := none, father := none, children := [] }

section Operations

variable {P : Type} [DecidableEq P]

/-- The assignment `x->father = v`. -/
def writeFather (g : Graph P) (x : P) (v : Option P) : Graph P :=
  Function.update g x { g x with father := v }

/-- The assignment `x->mother = v`. -/
def writeMother (g : Graph P) (x : P) (v : Option P) : Graph P :=
  Function.update g x { g x with mother := v }

/-- A write to the vector `x->children`. -/
def writeChildren (g : Graph P) (x : P) (l : List P) : Graph P :=
  Function.update g x { g x with children := l }

/-- The helper `Person::findChild`: `std::find` over `children`. The iterator is its
offset in the vector; `children.end()` is the offset `children.size()`. -/
def findChild (g : Graph P) (self child : P) : Nat :=
  List.indexOf child (g self).children

/-- The member `Person::hasChild`: `findChild(child) != children.end()`. -/
def hasChild (g : Graph P) (self child : P) : Bool :=
  decide (findChild g self child ≠ (g self).children.length)

/-- Modelled from the spec: the accessor `getNumChildren` is defined in `Person.h`,
which is not part of the sources; it is the number of entries of `children`. -/
def getNumChildren (g : Graph P) (self : P) : Nat :=
  (g self).children.length

/-- The member `Person::removeChild` (lines 110-127). -/
def removeChild (g : Graph P) (self child : P) : Bool × Graph P :=
  let it := findChild g self child
  if it ≠ (g self).children.length then
    let g1 := writeChildren g self ((g self).children.eraseIdx it)
    if (g1 self).sex = MALE then
      (true, writeFather g1 child none)
    else
      (true, writeMother g1 child none)
  else
    (false, g)

/-- The member `Person::addChild` (lines 81-108). -/
def addChild (g : Graph P) (self child : P) : Bool × Graph P :=
  let g1 :=
    if (g self).sex = MALE then
      match (g child).father with
      | some f => (removeChild g f child).2
      | none => g
    else g
  let g2 :=
    if (g1 self).sex = FEMALE then
      match (g1 child).mother with
      | some m => (removeChild g1 m child).2
      | none => g1
    else g1
  if !hasChild g2 self child then
    let g3 :=
      if (g2 self).sex = MALE then writeFather g2 child (some self)
      else writeMother g2 child (some self)
    (true, writeChildren g3 self ((g3 self).children ++ [child]))
  else
    (false, g2)

/-- The member `Person::setFather` (lines 35-54), called with a pointer to an existing
person; the test `if (newFather)` of line 48 is then true. The result of the inner
`addChild` is discarded, as in the source. -/
def setFather (g : Graph P) (self newFather : P) : Bool × Graph P :=
  if (g newFather).sex ≠ MALE then
    (false, g)
  else if (g self).father = some newFather then
    (true, g)
  else
    let g1 :=
      match (g self).father with
      | some f => (removeChild g f self).2
      | none => g
    let g2 := writeFather g1 self (some newFather)
    (true, (addChild g2 newFather self).2)

/-- The member `Person::setMother` (lines 56-75), called with a pointer to an existing
person. -/
def setMother (g : Graph P) (self newMother : P) : Bool × Graph P :=
  if (g newMother).sex ≠ FEMALE then
    (false, g)
  else if (g self).mother = some newMother then
    (true, g)
  else
    let g1 :=
      match (g self).mother with
      | some m => (removeChild g m self).2
      | none => g
    let g2 := writeMother g1 self (some newMother)
    (true, (addChild g2 newMother self).2)

/-- The member `Person::removeAllChildren` (lines 129-140): the loop runs over the
vector as it is on entry (the loop body does not touch it), then the vector is cleared. -/
def removeAllChildren (g : Graph P) (self : P) : Graph P :=
  let g1 := (g self).children.foldl
    (fun acc child =>
      if (acc self).sex = MALE then writeFather acc child none
      else writeMother acc child none) g
  writeChildren g1 self []

/-- First loop of the destructor (lines 15-19): both parent links of every child of
`self` are set to null. The loop runs over the vector `children`, which it does not change. -/
def orphanChildren (g : Graph P) (self : P) : Graph P :=
  (g self).children.foldl
    (fun acc child => writeMother (writeFather acc child none) child none) g

/-- Second block of the destructor (lines 22-26): `if (father)` then
`father->removeChild(this); father = nullptr;`. -/
def unlinkFather (g : Graph P) (self : P) : Graph P :=
  match (g self).father with
  | some f => writeFather (removeChild g f self).2 self none
  | none => g

/-- Third block of the destructor (lines 28-32): `if (mother)` then
`mother->removeChild(this); mother = nullptr;`. -/
def unlinkMother (g : Graph P) (self : P) : Graph P :=
  match (g self).mother with
  | some m => writeMother (removeChild g m self).2 self none
  | none => g

/-- The body of the destructor `Person::~Person` (lines 13-33): its three blocks in
order. The heap returned is the one left when the body finishes; the storage of `self`
is reclaimed right after, so only the other persons are meant to be read from it. -/
def destroy (g : Graph P) (self : P) : Graph P :=
  unlinkMother (unlinkFather (orphanChildren g self) self) self

/-- The parent link of a person that belongs to a parent of sex `s`: `father` for `MALE`,
`mother` for `FEMALE`. -/
def parentLink (s : Sex) (x : Person P) : Option P :=
  match s with
  | MALE => x.father
  | FEMALE => x.mother

/-- The assignment to the parent link of sex `s`, as in the branches
`if (this->sex == MALE) child->father = v; else child->mother = v;`. -/
def writeLink (g : Graph P) (s : Sex) (x : P) (v : Option P) : Graph P :=
  match s with
  | MALE => writeFather g x v
  | FEMALE => writeMother g x v

/-- Data-model invariants 1 to 3: a father is male and a mother is female; `q` is in
`p.children` exactly when `p` is the father or the mother of `q`; no children list holds
a person twice. -/
def WellFormed (g : Graph P) : Prop :=
  (∀ p f, (g p).father = some f → (g f).sex = MALE) ∧
  (∀ p m, (g p).mother = some m → (g m).sex = FEMALE) ∧
  (∀ p q, q ∈ (g p).children ↔ ((g q).father = some p ∨ (g q).mother = some p)) ∧
  (∀ p, (g p).children.Nodup)

/-- The invariants of `WellFormed`, said once for both sexes: the parent link of sex `s`
points to a person of sex `s`, and `q` is in `p.children` exactly when the link of `q`
for the sex of `p` points to `p`. -/
def LinkWF (g : Graph P) : Prop :=
  (∀ s p f, parentLink s (g p) = some f → (g f).sex = s) ∧
  (∀ p q, q ∈ (g p).children ↔ parentLink (g p).sex (g q) = some p) ∧
  (∀ p, (g p).children.Nodup)

/-- The last statement of `addChild` (lines 94-107), on the heap left by the two
detaching steps. -/
def addTail (g : Graph P) (self child : P) : Bool × Graph P :=
  if child ∈ (g self).children then (false, g)
  else (true, writeChildren (writeLink g (g self).sex child (some self)) self
    ((g self).children ++ [child]))

/-- The heap after the two detaching steps of `addChild` (lines 82-92): the child is
removed from its present parent of the sex of `self`, when it has one. -/
def detach (g : Graph P) (self child : P) : Graph P :=
  match parentLink (g self).sex (g child) with
  | some f => (removeChild g f child).2
  | none => g

/-- The heap of freshly created persons: `sx p` and `nm p` are the arguments of the
constructor call that made `p`. -/
def fresh (sx : P → Sex) (nm : P → String) : Graph P :=
  fun p => Person.create (sx p) (nm p)

/-- A call of one of the five mutators, with its receiver and argument. -/
inductive Op (P : Type) where
  | setFather (self newFather : P)
  | setMother (self newMother : P)
  | addChild (self child : P)
  | removeChild (self child : P)
  | removeAllChildren (self : P)

/-- The heap after one mutator call (the boolean result is dropped). -/
def Op.run (g : Graph P) : Op P → Graph P
  | .setFather c f => (FamilyTree.setFather g c f).2
  | .setMother c m => (FamilyTree.setMother g c m).2
  | .addChild p c => (FamilyTree.addChild g p c).2
  | .removeChild p c => (FamilyTree.removeChild g p c).2
  | .removeAllChildren p => FamilyTree.removeAllChildren g p

/-- The heap after a finite sequence of mutator calls, first call first. -/
def runOps (g : Graph P) (ops : List (Op P)) : Graph P :=
  ops.foldl Op.run g

instance WellFormed.decidable [Fintype P] (g : Graph P) : Decidable (WellFormed g) := by
  unfold WellFormed
  infer_instance

end Operations

/-! ## Calls with a nullable argument -/

section Nullable

variable {P : Type} [DecidableEq P]

/-- The member `Person::setFather` called with a pointer that may be null. Line 36 reads
`newFather->sex` before anything else (the test `if (newFather)` only comes at line 48);
for a null pointer that read is undefined behaviour, which is the result `none`. -/
def setFatherPtr (g : Graph P) (self : P) (newFather : Option P) : Option (Bool × Graph P) :=
  match newFather with
  | none => none
  | some f => some (setFather g self f)

/-- The member `Person::setMother` called with a pointer that may be null: line 57 reads
`newMother->sex` first, which is undefined for a null pointer (`none`). -/
def setMotherPtr (g : Graph P) (self : P) (newMother : Option P) : Option (Bool × Graph P) :=
  match newMother with
  | none => none
  | some m => some (setMother g self m)

/-- The member `Person::addChild` called with a pointer that may be null: a male
receiver reads `child->father` at line 83 and a female receiver reads `child->mother`
at line 89, with no test of `child` before; for a null pointer the read is undefined
(`none`). -/
def addChildPtr (g : Graph P) (self : P) (child : Option P) : Option (Bool × Graph P) :=
  match child with
  | none => none
  | some c => some (addChild g self c)

end Nullable

/-! ## Traversals -/

section Traversals

variable {P : Type} [DecidableEq P]

/-- The member `Person::getAncestors` (lines 142-156), with a bound `fuel` on the depth
of the recursion; `none` means that the bound was reached. The accumulator `results` is
passed in and returned. -/
def getAncestorsAux (g : Graph P) : Nat → P → List P → Option (List P)
  | 0, _, _ => none
  | fuel + 1, self, results =>
    let afterFather : Option (List P) :=
      match (g self).father with
      | some f =>
        if f ∈ results then some results
        else getAncestorsAux g fuel f (results ++ [f])
      | none => some results
    match afterFather with
    | none => none
    | some r1 =>
      match (g self).mother with
      | some m =>
        if m ∈ r1 then some r1
        else getAncestorsAux g fuel m (r1 ++ [m])
      | none => some r1

/-- The member `Person::getDescendants` (lines 158-165), with a bound `fuel` on the depth
of the recursion; `none` means that the bound was reached. -/
def getDescendantsAux (g : Graph P) : Nat → P → List P → Option (List P)
  | 0, _, _ => none
  | fuel + 1, self, results =>
    (g self).children.foldlM
      (fun acc child =>
        if child ∈ acc then some acc
        else getDescendantsAux g fuel child (acc ++ [child]))
      results

/-- The member `Person::getAncestors` on a heap with finitely many persons: the recursion
is run with more fuel than there are persons (theorem `C18_traversals_terminate` shows
that this is enough for every start and every accumulator). -/
def getAncestors [Fintype P] (g : Graph P) (self : P) (results : List P) : List P :=
  (getAncestorsAux g (Fintype.card P + 1) self results).getD results

/-- The member `Person::getDescendants` on a heap with finitely many persons. -/
def getDescendants [Fintype P] (g : Graph P) (self : P) (results : List P) : List P :=
  (getDescendantsAux g (Fintype.card P + 1) self results).getD results

/-- The member `Person::getSiblings` (lines 167-185): one loop over the children of the
father, one over the children of the mother. -/
def getSiblings (g : Graph P) (self : P) (results : List P) : List P :=
  let r1 :=
    match (g self).father with
    | some f =>
      (g f).children.foldl
        (fun acc sibling => if sibling ∉ acc ∧ sibling ≠ self then acc ++ [sibling] else acc)
        results
    | none => results
  match (g self).mother with
  | some m =>
    (g m).children.foldl
      (fun acc sibling => if sibling ∉ acc ∧ sibling ≠ self then acc ++ [sibling] else acc)
      r1
  | none => r1

/-- The member `Person::getCousins` (lines 187-213): for the father and then the mother,
the siblings of that parent are computed into a fresh list, and the children of each of
them are appended. -/
def getCousins (g : Graph P) (self : P) (results : List P) : List P :=
  let r1 :=
    match (g self).father with
    | some f =>
      (getSiblings g f []).foldl
        (fun acc sibling =>
          (g sibling).children.foldl
            (fun acc2 child => if child ∉ acc2 ∧ child ≠ self then acc2 ++ [child] else acc2)
            acc)
        results
    | none => results
  match (g self).mother with
  | some m =>
    (getSiblings g m []).foldl
      (fun acc sibling =>
        (g sibling).children.foldl
          (fun acc2 child => if child ∉ acc2 ∧ child ≠ self then acc2 ++ [child] else acc2)
          acc)
      r1
  | none => r1

/-- The depth-first traversal that `getAncestors` and `getDescendants` share: `succ x` is
the list of persons visited from `x` (its parents, or its children), in order. Used to
reason about both members at once. -/
def dfsAux (succ : P → List P) : Nat → P → List P → Option (List P)
  | 0, _, _ => none
  | fuel + 1, self, results =>
    (succ self).foldlM
      (fun acc y => if y ∈ acc then some acc else dfsAux succ fuel y (acc ++ [y]))
      results

/-- The traversal `dfsAux` with more fuel than there are persons. -/
def dfs [Fintype P] (succ : P → List P) (self : P) (results : List P) : List P :=
  (dfsAux succ (Fintype.card P + 1) self results).getD results

/-- The number of persons that are not in the accumulator. -/
def unlisted [Fintype P] (results : List P) : Nat :=
  (Finset.univ.filter (fun x => x ∉ results)).card

/-- What a traversal started on the list `roots` with the accumulator `results` appends:
the new part `t` has no duplicates and is disjoint from `results`, everything in it is
reached from a root, every root is listed afterwards, and every successor of a new entry
is listed afterwards. -/
structure DfsPost (succ : P → List P) (roots results t : List P) : Prop where
  nodup : t.Nodup
  fresh : ∀ x ∈ t, x ∉ results
  sound : ∀ x ∈ t, ∃ y ∈ roots, Relation.ReflTransGen (fun a b => b ∈ succ a) y x
  roots_in : ∀ y ∈ roots, y ∈ results ++ t
  closed : ∀ x ∈ t, ∀ z ∈ succ x, z ∈ results ++ t

/-- The parents of `x` in the order `getAncestors` looks at them: father, then mother. -/
def parentsOf (g : Graph P) (x : P) : List P :=
  (g x).father.toList ++ (g x).mother.toList

/-- The children of `x` in insertion order. -/
def childrenOf (g : Graph P) (x : P) : List P :=
  (g x).children

/-- One father or mother link: `y` is the father or the mother of `x`. -/
def parentStep (g : Graph P) (x y : P) : Prop :=
  (g x).father = some y ∨ (g x).mother = some y

/-- One child link: `y` is listed in `x.children`. -/
def childStep (g : Graph P) (x y : P) : Prop :=
  y ∈ (g x).children

/-- Invariant 4 of the data model: no person is its own ancestor. -/
def Acyclic (g : Graph P) : Prop :=
  ∀ x, ¬ Relation.TransGen (parentStep g) x x

/-- The loop shared by `getSiblings` and `getCousins`: every candidate that is not yet in
the accumulator and differs from `self` is appended. -/
def appendNew (self : P) (results candidates : List P) : List P :=
  candidates.foldl
    (fun acc x => if x ∉ acc ∧ x ≠ self then acc ++ [x] else acc) results

/-- The entries of a list in order, each kept at its first occurrence only. -/
def firstOcc : List P → List P
  | [] => []
  | x :: xs => x :: (firstOcc xs).filter (fun y => decide (y ≠ x))

/-- The children list of a parent link, empty when the link is null. -/
def childrenOfLink (g : Graph P) (link : Option P) : List P :=
  match link with
  | some x => (g x).children
  | none => []

/-- Reference definition of `getSiblings`, after the words of the specification: the
accumulator, followed by the children of the father and then the children of the mother
in insertion order, keeping only the entries that differ from `self`, are not in the
accumulator on entry and were not appended before (first occurrence). -/
def siblingsSpec (g : Graph P) (self : P) (results : List P) : List P :=
  results ++ firstOcc
    ((childrenOfLink g (g self).father ++ childrenOfLink g (g self).mother).filter
      (fun x => decide (x ≠ self ∧ x ∉ results)))

/-- The children, in insertion order, of the siblings of a parent link taken in the order
of `getSiblings(parent, [])`; empty when the link is null. -/
def cousinsVia (g : Graph P) (link : Option P) : List P :=
  match link with
  | some x => (getSiblings g x []).flatMap (fun s => (g s).children)
  | none => []

/-- Reference definition of `getCousins`, after the words of the specification: the
accumulator, followed by the children of the siblings of the father and then of the
siblings of the mother, keeping only the entries that differ from `self`, are not in the
accumulator on entry and were not appended before (first occurrence). -/
def cousinsSpec (g : Graph P) (self : P) (results : List P) : List P :=
  results ++ firstOcc
    ((cousinsVia g (g self).father ++ cousinsVia g (g self).mother).filter
      (fun x => decide (x ≠ self ∧ x ∉ results)))

/-- A chain of child links from `p`, given by positions: `walk g p [i, j]` is entry `j`
of the children of entry `i` of `p.children`, and `none` when a position is out of
range. The empty chain stays at `p`. -/
def walk (g : Graph P) : P → List Nat → Option P
  | p, [] => some p
  | p, i :: rest =>
    match (g p).children[i]? with
    | some c => walk g c rest
    | none => none

/-- The descendants of `p` form a tree: every person reached from `p` is reached by one
chain of child links only (and `p` itself only by the empty chain, so there is no cycle). -/
def DescendantTree (g : Graph P) (p : P) : Prop :=
  ∀ c1 c2 d, walk g p c1 = some d → walk g p c2 = some d → c1 = c2

end Traversals

/-! ## Concrete heaps used to exercise the theorems -/

/-- Four freshly created persons: `0` and `2` are male, `1` and `3` are female. -/
def quartet : Graph (Fin 4) :=
  fresh (fun i => if i = 0 ∨ i = 2 then MALE else FEMALE) (fun _ => "")

/-- The heap `quartet` after `0->addChild(3)`: person `3` is the only child of `0`. -/
def oneChild : Graph (Fin 4) := (addChild quartet 0 3).2

/-- The heap `quartet` after `3->setFather(0)` and `3->setMother(1)`. -/
def family : Graph (Fin 4) := (setMother (setFather quartet 3 0).2 3 1).2

/-- The heap `quartet` after `0->addChild(1)`, `0->addChild(2)` and `0->addChild(3)`:
person `0` has three children. -/
def threeChildren : Graph (Fin 4) :=
  (addChild (addChild (addChild quartet 0 1).2 0 2).2 0 3).2

/-- The heap `quartet` after `0->setFather(0)` and `0->setMother(1)`: the male `0` is its
own father and has the mother `1`. -/
def selfFather : Graph (Fin 4) := (setMother (setFather quartet 0 0).2 0 1).2

/-- The scenario of the specification, built with the calls of the test: `0` is
Grandfather1 (male), `1` Grandmother1 (female), `2` Father (male), `3` Mother2 (female),
`4` Child (female) and `5` Cousin (female). Father and Mother2 are children of both
grandparents, Child has the father Father, Cousin has the mother Mother2. -/
def scenario : Graph (Fin 6) :=
  let g0 : Graph (Fin 6) :=
    fresh (fun i => if i = 0 ∨ i = 2 then MALE else FEMALE) (fun _ => "")
  let g1 := (setFather g0 2 0).2
  let g2 := (setMother g1 2 1).2
  let g3 := (setFather g2 3 0).2
  let g4 := (setMother g3 3 1).2
  let g5 := (setFather g4 4 2).2
  (setMother g5 5 3).2

/-- A diamond: the heap `scenario` after `4->setMother(3)`, so that Child (`4`) has the
father Father (`2`) and the mother Mother2 (`3`), who share both parents: each
grandparent is reached from Child along two paths. -/
def diamond : Graph (Fin 6) := (setMother scenario 4 3).2

/-- The heap of the test `testPerson` at the point where the traversals are called: the
persons of `scenario`, in the same positions, and the extra child `6` (female), whose
father is Father (`2`). The calls are those of lines 285-292, in order. -/
def testHeap : Graph (Fin 7) :=
  let g0 : Graph (Fin 7) :=
    fresh (fun i => if i = 0 ∨ i = 2 then MALE else FEMALE) (fun _ => "")
  let g1 := (setFather g0 2 0).2
  let g2 := (setMother g1 2 1).2
  let g3 := (setFather g2 3 0).2
  let g4 := (setMother g3 3 1).2
  let g5 := (setFather g4 4 2).2
  let g6 := (setMother g5 5 3).2
  (setFather g6 6 2).2

/-! ## Reading a field after a write -/

section WriteLemmas

variable {P : Type} [DecidableEq P]

@[simp] theorem writeFather_father (g : Graph P) (x : P) (v : Option P) (y : P) :
    (writeFather g x v y).father = if y = x then v else (g y).father := by
  unfold writeFather
  by_cases h : y = x
  · subst h; simp
  · simp [Function.update_noteq h, h]

@[simp] theorem writeFather_mother (g : Graph P) (x : P) (v : Option P) (y : P) :
    (writeFather g x v y).mother = (g y).mother := by
  unfold writeFather
  by_cases h : y = x
  · subst h; simp
  · simp [Function.update_noteq h]

@[simp] theorem writeFather_children (g : Graph P) (x : P) (v : Option P) (y : P) :
    (writeFather g x v y).children = (g y).children := by
  unfold writeFather
  by_cases h : y = x
  · subst h; simp
  · simp [Function.update_noteq h]

@[simp] theorem writeFather_sex (g : Graph P) (x : P) (v : Option P) (y : P) :
    (writeFather g x v y).sex = (g y).sex := by
  unfold writeFather
  by_cases h : y = x
  · subst h; simp
  · simp [Function.update_noteq h]

@[simp] theorem writeFather_name (g : Graph P) (x : P) (v : Option P) (y : P) :
    (writeFather g x v y).name = (g y).name := by
  unfold writeFather
  by_cases h : y = x
  · subst h; simp
  · simp [Function.update_noteq h]

@[simp] theorem writeMother_mother (g : Graph P) (x : P) (v : Option P) (y : P) :
    (writeMother g x v y).mother = if y = x then v else (g y).mother := by
  unfold writeMother
  by_cases h : y = x
  · subst h; simp
  · simp [Function.update_noteq h, h]

@[simp] theorem writeMother_father (g : Graph P) (x : P) (v : Option P) (y : P) :
    (writeMother g x v y).father = (g y).father := by
  unfold writeMother
  by_cases h : y = x
  · subst h; simp
  · simp [Function.update_noteq h]

@[simp] theorem writeMother_children (g : Graph P) (x : P) (v : Option P) (y : P) :
    (writeMother g x v y).children = (g y).children := by
  unfold writeMother
  by_cases h : y = x
  · subst h; simp
  · simp [Function.update_noteq h]

@[simp] theorem writeMother_sex (g : Graph P) (x : P) (v : Option P) (y : P) :
    (writeMother g x v y).sex = (g y).sex := by
  unfold writeMother
  by_cases h : y = x
  · subst h; simp
  · simp [Function.update_noteq h]

@[simp] theorem writeMother_name (g : Graph P) (x : P) (v : Option P) (y : P) :
    (writeMother g x v y).name = (g y).name := by
  unfold writeMother
  by_cases h : y = x
  · subst h; simp
  · simp [Function.update_noteq h]

@[simp] theorem writeChildren_children (g : Graph P) (x : P) (l : List P) (y : P) :
    (writeChildren g x l y).children = if y = x then l else (g y).children := by
  unfold writeChildren
  by_cases h : y = x
  · subst h; simp
  · simp [Function.update_noteq h, h]

@[simp] theorem writeChildren_father (g : Graph P) (x : P) (l : List P) (y : P) :
    (writeChildren g x l y).father = (g y).father := by
  unfold writeChildren
  by_cases h : y = x
  · subst h; simp
  · simp [Function.update_noteq h]

@[simp] theorem writeChildren_mother (g : Graph P) (x : P) (l : List P) (y : P) :
    (writeChildren g x l y).mother = (g y).mother := by
  unfold writeChildren
  by_cases h : y = x
  · subst h; simp
  · simp [Function.update_noteq h]

@[simp] theorem writeChildren_sex (g : Graph P) (x : P) (l : List P) (y : P) :
    (writeChildren g x l y).sex = (g y).sex := by
  unfold writeChildren
  by_cases h : y = x
  · subst h; simp
  · simp [Function.update_noteq h]

@[simp] theorem writeChildren_name (g : Graph P) (x : P) (l : List P) (y : P) :
    (writeChildren g x l y).name = (g y).name := by
  unfold writeChildren
  by_cases h : y = x
  · subst h; simp
  · simp [Function.update_noteq h]

@[simp] theorem writeLink_sex (g : Graph P) (s : Sex) (x : P) (v : Option P) (y : P) :
    (writeLink g s x v y).sex = (g y).sex := by
  cases s <;> simp [writeLink]

@[simp] theorem writeLink_name (g : Graph P) (s : Sex) (x : P) (v : Option P) (y : P) :
    (writeLink g s x v y).name = (g y).name := by
  cases s <;> simp [writeLink]

@[simp] theorem writeLink_children (g : Graph P) (s : Sex) (x : P) (v : Option P) (y : P) :
    (writeLink g s x v y).children = (g y).children := by
  cases s <;> simp [writeLink]

@[simp] theorem writeLink_parentLink (g : Graph P) (s : Sex) (x : P) (v : Option P)
    (t : Sex) (y : P) :
    parentLink t (writeLink g s x v y) = if y = x ∧ t = s then v else parentLink t (g y) := by
  cases s <;> cases t <;> simp [writeLink, parentLink]

@[simp] theorem writeChildren_parentLink (g : Graph P) (x : P) (l : List P) (t : Sex) (y : P) :
    parentLink t (writeChildren g x l y) = parentLink t (g y) := by
  cases t <;> simp [parentLink]

end WriteLemmas

/-! ## The two forms of well-formedness -/

section Generic

variable {P : Type} [DecidableEq P]

theorem wellFormed_iff_linkWF (g : Graph P) : WellFormed g ↔ LinkWF g := by
  constructor
  · rintro ⟨hf, hm, he, hn⟩
    refine ⟨?_, ?_, hn⟩
    · intro s p f h
      cases s
      · exact hf p f h
      · exact hm p f h
    · intro p q
      rw [he p q]
      cases hs : (g p).sex
      · constructor
        · rintro (h | h)
          · exact h
          · have := hm q p h
            rw [hs] at this
            exact absurd this (by decide)
        · intro h
          exact Or.inl h
      · constructor
        · rintro (h | h)
          · have := hf q p h
            rw [hs] at this
            exact absurd this (by decide)
          · exact h
        · intro h
          exact Or.inr h
  · rintro ⟨hl, he, hn⟩
    refine ⟨fun p f h => hl MALE p f h, fun p m h => hl FEMALE p m h, ?_, hn⟩
    intro p q
    rw [he p q]
    constructor
    · intro h
      cases hs : (g p).sex
      · rw [hs] at h
        exact Or.inl h
      · rw [hs] at h
        exact Or.inr h
    · rintro (h | h)
      · have := hl MALE q p h
        rw [this]
        exact h
      · have := hl FEMALE q p h
        rw [this]
        exact h

/-! ## `removeChild` -/

theorem hasChild_eq (g : Graph P) (p c : P) :
    hasChild g p c = decide (c ∈ (g p).children) := by
  simp [hasChild, findChild, List.indexOf_eq_length]

theorem hasChild_iff (g : Graph P) (p c : P) : hasChild g p c = true ↔ c ∈ (g p).children := by
  simp [hasChild_eq]

theorem removeChild_eq (g : Graph P) (p c : P) :
    removeChild g p c =
      if c ∈ (g p).children then
        (true, writeLink (writeChildren g p ((g p).children.erase c)) (g p).sex c none)
      else (false, g) := by
  unfold removeChild
  simp only [findChild, ne_eq, List.indexOf_eq_length, not_not, writeChildren_sex,
    List.eraseIdx_indexOf_eq_erase]
  by_cases h : c ∈ (g p).children
  · simp only [h, if_true]
    cases hs : (g p).sex <;> simp [writeLink]
  · simp [h]

theorem removeChild_sex (g : Graph P) (p c x : P) :
    ((removeChild g p c).2 x).sex = (g x).sex := by
  rw [removeChild_eq]
  split_ifs <;> simp

theorem removeChild_name (g : Graph P) (p c x : P) :
    ((removeChild g p c).2 x).name = (g x).name := by
  rw [removeChild_eq]
  split_ifs <;> simp

theorem removeChild_children (g : Graph P) (p c x : P) :
    ((removeChild g p c).2 x).children =
      if x = p then (g p).children.erase c else (g x).children := by
  rw [removeChild_eq]
  by_cases h : c ∈ (g p).children
  · simp [h]
  · by_cases hx : x = p
    · subst hx
      simp [h, List.erase_of_not_mem h]
    · simp [h, hx]

theorem removeChild_parentLink (g : Graph P) (p c x : P) (t : Sex) :
    parentLink t ((removeChild g p c).2 x) =
      if c ∈ (g p).children ∧ x = c ∧ t = (g p).sex then none else parentLink t (g x) := by
  rw [removeChild_eq]
  by_cases h : c ∈ (g p).children <;> simp [h]

theorem removeChild_linkWF (g : Graph P) (p c : P) (h : LinkWF g) :
    LinkWF (removeChild g p c).2 := by
  obtain ⟨hl, he, hn⟩ := h
  refine ⟨?_, ?_, ?_⟩
  · intro s x f hx
    rw [removeChild_parentLink] at hx
    rw [removeChild_sex]
    split_ifs at hx
    exact hl s x f hx
  · intro x q
    rw [removeChild_children, removeChild_parentLink, removeChild_sex]
    by_cases hc : c ∈ (g p).children
    · have hcp := (he p c).1 hc
      by_cases hx : x = p
      · subst hx
        simp only [if_true, hc, true_and, (hn x).mem_erase_iff]
        by_cases hq : q = c
        · simp [hq]
        · simp [hq, he x q]
      · simp only [hx, if_false, hc, true_and, he x q]
        by_cases hq : q = c ∧ (g x).sex = (g p).sex
        · obtain ⟨rfl, hs⟩ := hq
          simp only [hs, and_self, if_true]
          rw [hcp]
          simp [Ne.symm hx]
        · simp [hq]
    · simp only [hc, false_and, if_false, List.erase_of_not_mem hc]
      split_ifs with hx
      · subst hx
        exact he x q
      · exact he x q
  · intro x
    rw [removeChild_children]
    split_ifs with hx
    · exact (hn p).erase c
    · exact hn x

/-! ## `addChild` -/

theorem addChild_eq (g : Graph P) (p c : P) :
    addChild g p c = addTail (detach g p c) p c := by
  unfold addChild addTail detach
  cases hs : (g p).sex
  · simp only [parentLink, if_true]
    cases hf : (g c).father
    · simp [hs, hasChild_eq, writeLink]
    · simp [hs, hasChild_eq, writeLink, removeChild_sex]
  · simp only [parentLink, if_true, reduceCtorEq, if_false, hs]
    cases hf : (g c).mother
    · simp [hs, hasChild_eq, writeLink]
    · simp [hs, hasChild_eq, writeLink, removeChild_sex]

theorem detach_some (g : Graph P) (p c f : P) (h : parentLink (g p).sex (g c) = some f) :
    detach g p c = (removeChild g f c).2 := by
  unfold detach
  rw [h]

theorem detach_none (g : Graph P) (p c : P) (h : parentLink (g p).sex (g c) = none) :
    detach g p c = g := by
  unfold detach
  rw [h]

theorem detach_sex (g : Graph P) (p c x : P) : (detach g p c x).sex = (g x).sex := by
  cases hf : parentLink (g p).sex (g c)
  · rw [detach_none g p c hf]
  · rw [detach_some g p c _ hf]
    exact removeChild_sex g _ c x

theorem detach_name (g : Graph P) (p c x : P) : (detach g p c x).name = (g x).name := by
  cases hf : parentLink (g p).sex (g c)
  · rw [detach_none g p c hf]
  · rw [detach_some g p c _ hf]
    exact removeChild_name g _ c x

theorem detach_linkWF (g : Graph P) (p c : P) (h : LinkWF g) : LinkWF (detach g p c) := by
  cases hf : parentLink (g p).sex (g c)
  · rw [detach_none g p c hf]
    exact h
  · rw [detach_some g p c _ hf]
    exact removeChild_linkWF g _ c h

theorem detach_parentLink (g : Graph P) (p c x : P) (t : Sex) (h : LinkWF g) :
    parentLink t (detach g p c x) =
      if x = c ∧ t = (g p).sex then none else parentLink t (g x) := by
  cases hf : parentLink (g p).sex (g c)
  · rw [detach_none g p c hf]
    split_ifs with hx
    · obtain ⟨rfl, rfl⟩ := hx
      exact hf
    · rfl
  · next f =>
    rw [detach_some g p c _ hf]
    have hsf := h.1 _ _ _ hf
    have hc : c ∈ (g f).children := by
      rw [h.2.1 f c, hsf]
      exact hf
    rw [removeChild_parentLink]
    simp [hc, hsf]

theorem detach_children (g : Graph P) (p c x : P) :
    (detach g p c x).children =
      if parentLink (g p).sex (g c) = some x then (g x).children.erase c
      else (g x).children := by
  cases hf : parentLink (g p).sex (g c)
  · rw [detach_none g p c hf]
    simp
  · next f =>
    rw [detach_some g p c _ hf, removeChild_children]
    by_cases hx : x = f
    · subst hx
      simp
    · simp [hx, Ne.symm hx]

theorem not_mem_of_link_none (g : Graph P) (p c : P) (h : LinkWF g)
    (hnone : parentLink (g p).sex (g c) = none) : c ∉ (g p).children := by
  rw [h.2.1 p c, hnone]
  simp

theorem addTail_eq_of_link_none (g : Graph P) (p c : P) (h : LinkWF g)
    (hnone : parentLink (g p).sex (g c) = none) :
    addTail g p c = (true, writeChildren (writeLink g (g p).sex c (some p)) p
      ((g p).children ++ [c])) := by
  unfold addTail
  rw [if_neg (not_mem_of_link_none g p c h hnone)]

theorem addTail_linkWF (g : Graph P) (p c : P) (h : LinkWF g)
    (hnone : parentLink (g p).sex (g c) = none) : LinkWF (addTail g p c).2 := by
  rw [addTail_eq_of_link_none g p c h hnone]
  have hc := not_mem_of_link_none g p c h hnone
  obtain ⟨hl, he, hn⟩ := h
  refine ⟨?_, ?_, ?_⟩
  · intro s x f hx
    simp only [writeChildren_parentLink, writeLink_parentLink, writeChildren_sex,
      writeLink_sex] at hx ⊢
    split_ifs at hx with hcond
    · obtain ⟨rfl, rfl⟩ := hcond
      cases hx
      rfl
    · exact hl s x f hx
  · intro x q
    simp only [writeChildren_parentLink, writeLink_parentLink, writeChildren_sex,
      writeLink_sex, writeChildren_children, writeLink_children]
    by_cases hx : x = p
    · subst hx
      simp only [if_true, List.mem_append, List.mem_singleton, and_true]
      by_cases hq : q = c
      · simp [hq]
      · simp [hq, he x q]
    · simp only [hx, if_false]
      by_cases hq : q = c ∧ (g x).sex = (g p).sex
      · obtain ⟨rfl, hs⟩ := hq
        simp only [hs, and_self, if_true, Option.some.injEq, Ne.symm hx, iff_false]
        rw [he x q, hs, hnone]
        simp
      · simp only [hq, if_false]
        exact he x q
  · intro x
    simp only [writeChildren_children, writeLink_children]
    split_ifs with hx
    · exact List.Nodup.append (hn p) (List.nodup_singleton c) (by simpa using hc)
    · exact hn x

theorem addChild_linkWF (g : Graph P) (p c : P) (h : LinkWF g) : LinkWF (addChild g p c).2 := by
  rw [addChild_eq]
  apply addTail_linkWF _ _ _ (detach_linkWF g p c h)
  rw [detach_sex, detach_parentLink g p c c _ h]
  simp

theorem addChild_fst (g : Graph P) (p c : P) (h : LinkWF g) : (addChild g p c).1 = true := by
  rw [addChild_eq, addTail_eq_of_link_none _ _ _ (detach_linkWF g p c h)]
  rw [detach_sex, detach_parentLink g p c c _ h]
  simp

theorem addChild_snd (g : Graph P) (p c : P) (h : LinkWF g) :
    (addChild g p c).2 = writeChildren (writeLink (detach g p c) (g p).sex c (some p)) p
      ((detach g p c p).children ++ [c]) := by
  rw [addChild_eq, addTail_eq_of_link_none _ _ _ (detach_linkWF g p c h), detach_sex]
  rw [detach_sex, detach_parentLink g p c c _ h]
  simp

theorem addChild_sex (g : Graph P) (p c x : P) :
    ((addChild g p c).2 x).sex = (g x).sex := by
  rw [addChild_eq]
  unfold addTail
  split_ifs <;> simp [detach_sex]

theorem addChild_parentLink (g : Graph P) (p c x : P) (t : Sex) (h : LinkWF g) :
    parentLink t ((addChild g p c).2 x) =
      if x = c ∧ t = (g p).sex then some p else parentLink t (g x) := by
  rw [addChild_snd g p c h, writeChildren_parentLink, writeLink_parentLink,
    detach_parentLink g p c x t h]
  split_ifs <;> rfl

theorem erase_of_link_ne (g : Graph P) (p c : P) (h : LinkWF g)
    (hne : parentLink (g p).sex (g c) ≠ some p) : (g p).children.erase c = (g p).children := by
  apply List.erase_of_not_mem
  rw [h.2.1 p c]
  exact hne

theorem addChild_children_self (g : Graph P) (p c : P) (h : LinkWF g) :
    ((addChild g p c).2 p).children = (g p).children.erase c ++ [c] := by
  rw [addChild_snd g p c h, writeChildren_children, if_pos rfl, detach_children]
  split_ifs with hl
  · rfl
  · rw [erase_of_link_ne g p c h hl]

theorem addChild_children_other (g : Graph P) (p c x : P) (h : LinkWF g) (hx : x ≠ p) :
    ((addChild g p c).2 x).children =
      if parentLink (g p).sex (g c) = some x then (g x).children.erase c
      else (g x).children := by
  rw [addChild_snd g p c h, writeChildren_children, if_neg hx, writeLink_children,
    detach_children]

/-! ## `setFather` and `setMother` -/

theorem writeLink_writeLink (g : Graph P) (s : Sex) (x : P) (v w : Option P) :
    writeLink (writeLink g s x v) s x w = writeLink g s x w := by
  cases s <;> simp [writeLink, writeFather, writeMother]

theorem detach_link_none (g : Graph P) (p c : P) (h : LinkWF g) :
    parentLink (detach g p c p).sex (detach g p c c) = none := by
  rw [detach_sex, detach_parentLink g p c c _ h]
  simp

theorem addChild_after_write (g : Graph P) (f c : P) (h : LinkWF g)
    (hnone : parentLink (g f).sex (g c) = none) :
    addChild (writeLink g (g f).sex c (some f)) f c = addTail g f c := by
  have hc := not_mem_of_link_none g f c h hnone
  have hd : detach (writeLink g (g f).sex c (some f)) f c = writeLink g (g f).sex c (some f) := by
    rw [detach_some _ f c f (by simp), removeChild_eq]
    simp [hc]
  rw [addChild_eq, hd]
  unfold addTail
  simp [hc, writeLink_writeLink]

theorem setFather_eq (g : Graph P) (c f : P) (hs : (g f).sex = MALE)
    (hne : (g c).father ≠ some f) :
    setFather g c f = (true, (addChild (writeFather (detach g f c) c (some f)) f c).2) := by
  unfold setFather detach
  simp only [hs, ne_eq, not_true_eq_false, if_false, hne, parentLink]

theorem setMother_eq (g : Graph P) (c m : P) (hs : (g m).sex = FEMALE)
    (hne : (g c).mother ≠ some m) :
    setMother g c m = (true, (addChild (writeMother (detach g m c) c (some m)) m c).2) := by
  unfold setMother detach
  simp only [hs, ne_eq, not_true_eq_false, if_false, hne, parentLink]

theorem setFather_snd_eq_addChild (g : Graph P) (c f : P) (h : LinkWF g)
    (hs : (g f).sex = MALE) (hne : (g c).father ≠ some f) :
    (setFather g c f).2 = (addChild g f c).2 := by
  rw [setFather_eq g c f hs hne, addChild_eq g f c]
  have hw : writeFather (detach g f c) c (some f)
      = writeLink (detach g f c) (detach g f c f).sex c (some f) := by
    rw [detach_sex, hs]
    rfl
  rw [hw, addChild_after_write _ f c (detach_linkWF g f c h) (detach_link_none g f c h)]

theorem setMother_snd_eq_addChild (g : Graph P) (c m : P) (h : LinkWF g)
    (hs : (g m).sex = FEMALE) (hne : (g c).mother ≠ some m) :
    (setMother g c m).2 = (addChild g m c).2 := by
  rw [setMother_eq g c m hs hne, addChild_eq g m c]
  have hw : writeMother (detach g m c) c (some m)
      = writeLink (detach g m c) (detach g m c m).sex c (some m) := by
    rw [detach_sex, hs]
    rfl
  rw [hw, addChild_after_write _ m c (detach_linkWF g m c h) (detach_link_none g m c h)]

theorem setFather_linkWF (g : Graph P) (c f : P) (h : LinkWF g) : LinkWF (setFather g c f).2 := by
  by_cases hs : (g f).sex = MALE
  · by_cases hne : (g c).father = some f
    · simp only [setFather, hs, hne, ne_eq, not_true_eq_false, if_false, if_true]
      exact h
    · rw [setFather_snd_eq_addChild g c f h hs hne]
      exact addChild_linkWF g f c h
  · simp only [setFather, hs, ne_eq, not_false_eq_true, if_true]
    exact h

theorem setMother_linkWF (g : Graph P) (c m : P) (h : LinkWF g) : LinkWF (setMother g c m).2 := by
  by_cases hs : (g m).sex = FEMALE
  · by_cases hne : (g c).mother = some m
    · simp only [setMother, hs, hne, ne_eq, not_true_eq_false, if_false, if_true]
      exact h
    · rw [setMother_snd_eq_addChild g c m h hs hne]
      exact addChild_linkWF g m c h
  · simp only [setMother, hs, ne_eq, not_false_eq_true, if_true]
    exact h

/-! ## `removeAllChildren` -/

theorem clear_step_eq (self : P) :
    (fun (acc : Graph P) (child : P) =>
      if (acc self).sex = MALE then writeFather acc child none
      else writeMother acc child none)
    = fun acc child => writeLink acc (acc self).sex child none := by
  funext acc child
  cases hs : (acc self).sex <;> simp [writeLink]

theorem foldl_clear (self : P) (l : List P) (g : Graph P) :
    (∀ x, ((l.foldl (fun acc child => writeLink acc (acc self).sex child none) g) x).sex
        = (g x).sex) ∧
    (∀ x, ((l.foldl (fun acc child => writeLink acc (acc self).sex child none) g) x).name
        = (g x).name) ∧
    (∀ x, ((l.foldl (fun acc child => writeLink acc (acc self).sex child none) g) x).children
        = (g x).children) ∧
    (∀ t x, parentLink t ((l.foldl (fun acc child => writeLink acc (acc self).sex child none) g) x)
        = if x ∈ l ∧ t = (g self).sex then none else parentLink t (g x)) := by
  induction l generalizing g with
  | nil => simp
  | cons a l ih =>
    obtain ⟨h1, h2, h3, h4⟩ := ih (writeLink g (g self).sex a none)
    simp only [List.foldl_cons]
    refine ⟨fun x => ?_, fun x => ?_, fun x => ?_, fun t x => ?_⟩
    · rw [h1]; simp
    · rw [h2]; simp
    · rw [h3]; simp
    · rw [h4]
      simp only [writeLink_sex, writeLink_parentLink, List.mem_cons]
      by_cases hx : x = a <;> by_cases ht : t = (g self).sex <;> simp [hx, ht]

theorem removeAllChildren_eq (g : Graph P) (p : P) :
    removeAllChildren g p =
      writeChildren ((g p).children.foldl
        (fun acc child => writeLink acc (acc p).sex child none) g) p [] := by
  unfold removeAllChildren
  rw [clear_step_eq]

theorem removeAllChildren_sex (g : Graph P) (p x : P) :
    (removeAllChildren g p x).sex = (g x).sex := by
  rw [removeAllChildren_eq, writeChildren_sex, (foldl_clear p _ g).1]

theorem removeAllChildren_children (g : Graph P) (p x : P) :
    (removeAllChildren g p x).children = if x = p then [] else (g x).children := by
  rw [removeAllChildren_eq, writeChildren_children, (foldl_clear p _ g).2.2.1]

theorem removeAllChildren_parentLink (g : Graph P) (p x : P) (t : Sex) :
    parentLink t (removeAllChildren g p x) =
      if x ∈ (g p).children ∧ t = (g p).sex then none else parentLink t (g x) := by
  rw [removeAllChildren_eq, writeChildren_parentLink, (foldl_clear p _ g).2.2.2]

theorem removeAllChildren_linkWF (g : Graph P) (p : P) (h : LinkWF g) :
    LinkWF (removeAllChildren g p) := by
  obtain ⟨hl, he, hn⟩ := h
  refine ⟨?_, ?_, ?_⟩
  · intro s x f hx
    rw [removeAllChildren_parentLink] at hx
    rw [removeAllChildren_sex]
    split_ifs at hx
    exact hl s x f hx
  · intro x q
    rw [removeAllChildren_children, removeAllChildren_parentLink, removeAllChildren_sex]
    by_cases hx : x = p
    · subst hx
      simp only [if_true, and_true, List.not_mem_nil, false_iff]
      by_cases hq : q ∈ (g x).children
      · simp [hq]
      · simp only [hq, if_false]
        rwa [he x q] at hq
    · simp only [hx, if_false]
      by_cases hq : q ∈ (g p).children ∧ (g x).sex = (g p).sex
      · obtain ⟨hq, hs⟩ := hq
        simp only [hq, hs, and_self, if_true, reduceCtorEq, iff_false]
        rw [he x q, hs, (he p q).1 hq]
        simp [Ne.symm hx]
      · simp only [hq, if_false]
        exact he x q
  · intro x
    rw [removeAllChildren_children]
    split_ifs
    · exact List.nodup_nil
    · exact hn x

/-! ## Reachable heaps -/

theorem fresh_linkWF (sx : P → Sex) (nm : P → String) : LinkWF (fresh sx nm) := by
  refine ⟨?_, ?_, ?_⟩
  · intro s p f h
    cases s <;> simp [fresh, Person.create, parentLink] at h
  · intro p q
    cases hs : (fresh sx nm p).sex <;> simp [fresh, Person.create, parentLink]
  · intro p
    simp [fresh, Person.create]

theorem run_linkWF (g : Graph P) (op : Op P) (h : LinkWF g) : LinkWF (op.run g) := by
  cases op with
  | setFather c f => exact setFather_linkWF g c f h
  | setMother c m => exact setMother_linkWF g c m h
  | addChild p c => exact addChild_linkWF g p c h
  | removeChild p c => exact removeChild_linkWF g p c h
  | removeAllChildren p => exact removeAllChildren_linkWF g p h

theorem runOps_linkWF (ops : List (Op P)) (g : Graph P) (h : LinkWF g) :
    LinkWF (runOps g ops) := by
  induction ops generalizing g with
  | nil => exact h
  | cons op ops ih => exact ih (op.run g) (run_linkWF g op h)

/-! ## `destroy` -/

theorem foldl_orphan (l : List P) (g : Graph P) :
    (∀ x, ((l.foldl (fun acc child => writeMother (writeFather acc child none) child none)
        g) x).sex = (g x).sex) ∧
    (∀ x, ((l.foldl (fun acc child => writeMother (writeFather acc child none) child none)
        g) x).children = (g x).children) ∧
    (∀ x, ((l.foldl (fun acc child => writeMother (writeFather acc child none) child none)
        g) x).father = if x ∈ l then none else (g x).father) ∧
    (∀ x, ((l.foldl (fun acc child => writeMother (writeFather acc child none) child none)
        g) x).mother = if x ∈ l then none else (g x).mother) := by
  induction l generalizing g with
  | nil => simp
  | cons a l ih =>
    obtain ⟨h1, h2, h3, h4⟩ := ih (writeMother (writeFather g a none) a none)
    simp only [List.foldl_cons]
    refine ⟨fun x => ?_, fun x => ?_, fun x => ?_, fun x => ?_⟩
    · rw [h1]; simp
    · rw [h2]; simp
    · rw [h3]
      by_cases hx : x = a <;> simp [hx]
    · rw [h4]
      by_cases hx : x = a <;> simp [hx]

theorem orphanChildren_sex (g : Graph P) (p x : P) :
    (orphanChildren g p x).sex = (g x).sex :=
  (foldl_orphan _ g).1 x

theorem orphanChildren_children (g : Graph P) (p x : P) :
    (orphanChildren g p x).children = (g x).children :=
  (foldl_orphan _ g).2.1 x

theorem orphanChildren_father (g : Graph P) (p x : P) :
    (orphanChildren g p x).father = if x ∈ (g p).children then none else (g x).father :=
  (foldl_orphan _ g).2.2.1 x

theorem orphanChildren_mother (g : Graph P) (p x : P) :
    (orphanChildren g p x).mother = if x ∈ (g p).children then none else (g x).mother :=
  (foldl_orphan _ g).2.2.2 x

theorem removeChild_father (g : Graph P) (p c x : P) :
    ((removeChild g p c).2 x).father =
      if c ∈ (g p).children ∧ x = c ∧ (g p).sex = MALE then none else (g x).father := by
  have h := removeChild_parentLink g p c x MALE
  simp only [parentLink] at h
  rw [h]
  by_cases hs : (g p).sex = MALE
  · simp [hs]
  · have hs2 : ¬ MALE = (g p).sex := fun e => hs e.symm
    simp [hs, hs2]

theorem removeChild_mother (g : Graph P) (p c x : P) :
    ((removeChild g p c).2 x).mother =
      if c ∈ (g p).children ∧ x = c ∧ (g p).sex = FEMALE then none else (g x).mother := by
  have h := removeChild_parentLink g p c x FEMALE
  simp only [parentLink] at h
  rw [h]
  by_cases hs : (g p).sex = FEMALE
  · simp [hs]
  · have hs2 : ¬ FEMALE = (g p).sex := fun e => hs e.symm
    simp [hs, hs2]

theorem unlinkFather_children (g : Graph P) (p x : P) :
    (unlinkFather g p x).children =
      if (g p).father = some x then (g x).children.erase p else (g x).children := by
  unfold unlinkFather
  cases hf : (g p).father with
  | none => simp
  | some f =>
    simp only [writeFather_children, removeChild_children, Option.some.injEq]
    by_cases hx : x = f
    · subst hx; simp
    · simp [hx, Ne.symm hx]

theorem unlinkMother_children (g : Graph P) (p x : P) :
    (unlinkMother g p x).children =
      if (g p).mother = some x then (g x).children.erase p else (g x).children := by
  unfold unlinkMother
  cases hf : (g p).mother with
  | none => simp
  | some m =>
    simp only [writeMother_children, removeChild_children, Option.some.injEq]
    by_cases hx : x = m
    · subst hx; simp
    · simp [hx, Ne.symm hx]

theorem unlinkFather_none (g : Graph P) (p x : P) :
    ((g x).father = none → (unlinkFather g p x).father = none) ∧
    ((g x).mother = none → (unlinkFather g p x).mother = none) := by
  unfold unlinkFather
  cases hf : (g p).father with
  | none => exact ⟨id, id⟩
  | some f =>
    constructor
    · intro h
      simp only [writeFather_father, removeChild_father, h]
      split_ifs <;> rfl
    · intro h
      simp only [writeFather_mother, removeChild_mother, h]
      split_ifs <;> rfl

theorem unlinkMother_none (g : Graph P) (p x : P) :
    ((g x).father = none → (unlinkMother g p x).father = none) ∧
    ((g x).mother = none → (unlinkMother g p x).mother = none) := by
  unfold unlinkMother
  cases hf : (g p).mother with
  | none => exact ⟨id, id⟩
  | some m =>
    constructor
    · intro h
      simp only [writeMother_father, removeChild_father, h]
      split_ifs <;> rfl
    · intro h
      simp only [writeMother_mother, removeChild_mother, h]
      split_ifs <;> rfl

/-- After `destroy(p)` every former child of `p` has neither a father nor a mother, in
every heap. -/
theorem destroy_child_links (g : Graph P) (p q : P) (hq : q ∈ (g p).children) :
    (destroy g p q).father = none ∧ (destroy g p q).mother = none := by
  have hf1 : (orphanChildren g p q).father = none := by
    rw [orphanChildren_father, if_pos hq]
  have hm1 : (orphanChildren g p q).mother = none := by
    rw [orphanChildren_mother, if_pos hq]
  have h2 := unlinkFather_none (orphanChildren g p) p q
  have h3 := unlinkMother_none (unlinkFather (orphanChildren g p) p) p q
  exact ⟨h3.1 (h2.1 hf1), h3.2 (h2.2 hm1)⟩

/-- The mother link of `p` survives the father block of the destructor when the father
is male. -/
theorem unlinkFather_mother_self (g : Graph P) (p : P)
    (hmale : ∀ f, (g p).father = some f → (g f).sex = MALE) :
    (unlinkFather g p p).mother = (g p).mother := by
  unfold unlinkFather
  cases hf : (g p).father with
  | none => rfl
  | some f =>
    simp only [writeFather_mother, removeChild_mother, hmale f hf]
    simp

/-- When `p` is not listed among its own children, `destroy(p)` in a well-formed heap
removes `p` from the children of its former father and of its former mother. -/
theorem destroy_parent_lists (g : Graph P) (p r : P) (h : WellFormed g)
    (hself : p ∉ (g p).children)
    (hr : (g p).father = some r ∨ (g p).mother = some r) :
    p ∉ (destroy g p r).children := by
  have hnd : ∀ x, (g x).children.Nodup := h.2.2.2
  have hf1 : (orphanChildren g p p).father = (g p).father := by
    rw [orphanChildren_father, if_neg hself]
  have hm1 : (orphanChildren g p p).mother = (g p).mother := by
    rw [orphanChildren_mother, if_neg hself]
  have hm2 : (unlinkFather (orphanChildren g p) p p).mother = (g p).mother := by
    rw [unlinkFather_mother_self, hm1]
    intro f hf
    rw [orphanChildren_sex]
    rw [hf1] at hf
    exact h.1 p f hf
  have hc2 : ∀ x, (unlinkFather (orphanChildren g p) p x).children =
      if (g p).father = some x then (g x).children.erase p else (g x).children := by
    intro x
    rw [unlinkFather_children, hf1, orphanChildren_children]
  have hnd2 : ∀ x, (unlinkFather (orphanChildren g p) p x).children.Nodup := by
    intro x
    rw [hc2]
    split_ifs
    · exact (hnd x).erase p
    · exact hnd x
  unfold destroy
  rw [unlinkMother_children, hm2]
  split_ifs with hm
  · exact fun hc => ((List.Nodup.mem_erase_iff (hnd2 r)).1 hc).1 rfl
  · rw [hc2]
    rcases hr with hr | hr
    · rw [if_pos hr]
      exact fun hc => ((List.Nodup.mem_erase_iff (hnd r)).1 hc).1 rfl
    · exact absurd hr hm

theorem addChild_post (g : Graph P) (p c : P) (h : LinkWF g) :
    parentLink (g p).sex ((addChild g p c).2 c) = some p ∧
    c ∈ ((addChild g p c).2 p).children ∧
    ∀ f1, parentLink (g p).sex (g c) = some f1 → f1 ≠ p →
      c ∉ ((addChild g p c).2 f1).children := by
  refine ⟨?_, ?_, ?_⟩
  · rw [addChild_parentLink g p c c _ h]
    simp
  · rw [addChild_children_self g p c h]
    simp
  · intro f1 hf1 hne
    rw [addChild_children_other g p c f1 h hne, if_pos hf1]
    exact fun hmem => (List.Nodup.mem_erase_iff (h.2.2 f1)).1 hmem |>.1 rfl

end Generic

/-! ## Depth-first traversal with an accumulator -/

section Dfs

variable {P : Type} [DecidableEq P]

theorem unlisted_le_card [Fintype P] (R : List P) : unlisted R ≤ Fintype.card P := by
  unfold unlisted
  exact Finset.card_filter_le _ _

theorem unlisted_mono [Fintype P] (R t : List P) : unlisted (R ++ t) ≤ unlisted R := by
  unfold unlisted
  apply Finset.card_le_card
  intro x
  simp only [Finset.mem_filter, Finset.mem_univ, true_and, List.mem_append, not_or]
  exact fun h => h.1

theorem unlisted_append_lt [Fintype P] (R : List P) (y : P) (hy : y ∉ R) :
    unlisted (R ++ [y]) < unlisted R := by
  unfold unlisted
  apply Finset.card_lt_card
  rw [Finset.ssubset_iff_of_subset]
  · refine ⟨y, ?_, ?_⟩
    · simp [hy]
    · simp
  · intro x
    simp only [Finset.mem_filter, Finset.mem_univ, true_and, List.mem_append, not_or]
    exact fun h => h.1

theorem DfsPost.nil (succ : P → List P) (R : List P) : DfsPost succ [] R [] :=
  ⟨List.nodup_nil, by simp, by simp, by simp, by simp⟩

theorem DfsPost.skip (succ : P → List P) (R : List P) (y : P) (hy : y ∈ R) :
    DfsPost succ [y] R [] :=
  ⟨List.nodup_nil, by simp, by simp, by simpa using hy, by simp⟩

theorem DfsPost.visit (succ : P → List P) (R t : List P) (y : P) (hy : y ∉ R)
    (h : DfsPost succ (succ y) (R ++ [y]) t) : DfsPost succ [y] R (y :: t) := by
  refine ⟨?_, ?_, ?_, ?_, ?_⟩
  · refine List.nodup_cons.2 ⟨?_, h.nodup⟩
    intro hyt
    exact h.fresh y hyt (by simp)
  · intro x hx
    rcases List.mem_cons.1 hx with rfl | hx
    · exact hy
    · exact fun hxR => h.fresh x hx (by simp [hxR])
  · intro x hx
    refine ⟨y, by simp, ?_⟩
    rcases List.mem_cons.1 hx with rfl | hx
    · exact Relation.ReflTransGen.refl
    · obtain ⟨z, hz, hzx⟩ := h.sound x hx
      exact Relation.ReflTransGen.head hz hzx
  · intro z hz
    simp only [List.mem_singleton] at hz
    subst hz
    simp
  · intro x hx z hz
    rcases List.mem_cons.1 hx with rfl | hx
    · have := h.roots_in z hz
      simpa [List.mem_append, or_assoc] using this
    · have := h.closed x hx z hz
      simpa [List.mem_append, or_assoc] using this

theorem DfsPost.append (succ : P → List P) (r1 r2 R t1 t2 : List P)
    (h1 : DfsPost succ r1 R t1) (h2 : DfsPost succ r2 (R ++ t1) t2) :
    DfsPost succ (r1 ++ r2) R (t1 ++ t2) := by
  refine ⟨?_, ?_, ?_, ?_, ?_⟩
  · refine List.Nodup.append h1.nodup h2.nodup ?_
    intro x hx1 hx2
    exact h2.fresh x hx2 (by simp [hx1])
  · intro x hx
    rcases List.mem_append.1 hx with hx | hx
    · exact h1.fresh x hx
    · exact fun hxR => h2.fresh x hx (by simp [hxR])
  · intro x hx
    rcases List.mem_append.1 hx with hx | hx
    · obtain ⟨y, hy, hyx⟩ := h1.sound x hx
      exact ⟨y, by simp [hy], hyx⟩
    · obtain ⟨y, hy, hyx⟩ := h2.sound x hx
      exact ⟨y, by simp [hy], hyx⟩
  · intro y hy
    rcases List.mem_append.1 hy with hy | hy
    · have := h1.roots_in y hy
      simp only [List.mem_append] at this ⊢
      tauto
    · have := h2.roots_in y hy
      simp only [List.mem_append] at this ⊢
      tauto
  · intro x hx z hz
    rcases List.mem_append.1 hx with hx | hx
    · have := h1.closed x hx z hz
      simp only [List.mem_append] at this ⊢
      tauto
    · have := h2.closed x hx z hz
      simp only [List.mem_append] at this ⊢
      tauto

theorem dfs_fold_spec [Fintype P] (succ : P → List P) (n : Nat)
    (ih : ∀ p R, unlisted R < n → ∃ t, dfsAux succ n p R = some (R ++ t) ∧
      DfsPost succ (succ p) R t)
    (ys R : List P) (hR : unlisted R ≤ n) :
    ∃ t, ys.foldlM (fun acc y => if y ∈ acc then some acc else dfsAux succ n y (acc ++ [y])) R
        = some (R ++ t) ∧ DfsPost succ ys R t := by
  induction ys generalizing R with
  | nil => exact ⟨[], by simp, DfsPost.nil succ R⟩
  | cons y ys ihy =>
    by_cases hy : y ∈ R
    · obtain ⟨t, ht, hpost⟩ := ihy R hR
      refine ⟨t, ?_, ?_⟩
      · simp only [List.foldlM_cons, hy, if_true, Option.bind_eq_bind, Option.some_bind]
        exact ht
      · have := DfsPost.append succ [y] ys R [] t (DfsPost.skip succ R y hy) (by simpa using hpost)
        simpa using this
    · have hlt : unlisted (R ++ [y]) < n := lt_of_lt_of_le (unlisted_append_lt R y hy) hR
      obtain ⟨t1, ht1, hp1⟩ := ih y (R ++ [y]) hlt
      have hR1 : unlisted (R ++ (y :: t1)) ≤ n := le_trans (unlisted_mono R _) hR
      obtain ⟨t2, ht2, hp2⟩ := ihy (R ++ (y :: t1)) hR1
      refine ⟨(y :: t1) ++ t2, ?_, ?_⟩
      · simp only [List.foldlM_cons, hy, if_false, Option.bind_eq_bind, ht1, Option.some_bind]
        simp only [List.append_assoc, List.singleton_append] at ht2 ⊢
        exact ht2
      · exact DfsPost.append succ [y] ys R (y :: t1) t2 (DfsPost.visit succ R t1 y hy hp1) hp2

theorem dfsAux_spec [Fintype P] (succ : P → List P) (n : Nat) (p : P) (R : List P)
    (h : unlisted R < n) :
    ∃ t, dfsAux succ n p R = some (R ++ t) ∧ DfsPost succ (succ p) R t := by
  induction n generalizing p R with
  | zero => exact absurd h (Nat.not_lt_zero _)
  | succ n ih =>
    exact dfs_fold_spec succ n ih (succ p) R (Nat.lt_succ_iff.1 h)

theorem dfs_fold_mono (f1 f2 : List P → P → Option (List P))
    (h : ∀ acc y r, f1 acc y = some r → f2 acc y = some r)
    (ys R r : List P) (hr : ys.foldlM f1 R = some r) : ys.foldlM f2 R = some r := by
  induction ys generalizing R with
  | nil => simpa using hr
  | cons y ys ih =>
    simp only [List.foldlM_cons, Option.bind_eq_bind, Option.bind_eq_some] at hr ⊢
    obtain ⟨R1, h1, h2⟩ := hr
    exact ⟨R1, h R y R1 h1, ih R1 h2⟩

theorem dfsAux_mono (succ : P → List P) (n m : Nat) (p : P) (R r : List P)
    (hnm : n ≤ m) (h : dfsAux succ n p R = some r) : dfsAux succ m p R = some r := by
  induction n generalizing m p R r with
  | zero => simp [dfsAux] at h
  | succ n ih =>
    cases m with
    | zero => exact absurd hnm (Nat.not_succ_le_zero n)
    | succ m =>
      unfold dfsAux at h ⊢
      refine dfs_fold_mono _ _ ?_ (succ p) R r h
      intro acc y r1 h1
      by_cases hy : y ∈ acc
      · simpa [hy] using h1
      · simp only [hy, if_false] at h1 ⊢
        exact ih m y _ r1 (Nat.le_of_succ_le_succ hnm) h1

theorem dfs_fold_shift (succ : P → List P) (n : Nat) (S : List P)
    (ih : ∀ p R r, (∀ x ∈ S, ¬ Relation.TransGen (fun a b => b ∈ succ a) p x) →
      dfsAux succ n p R = some r → dfsAux succ n p (S ++ R) = some (S ++ r))
    (ys R r : List P)
    (hys : ∀ y ∈ ys, y ∉ S ∧ ∀ x ∈ S, ¬ Relation.TransGen (fun a b => b ∈ succ a) y x)
    (hr : ys.foldlM (fun acc y => if y ∈ acc then some acc else dfsAux succ n y (acc ++ [y])) R
      = some r) :
    ys.foldlM (fun acc y => if y ∈ acc then some acc else dfsAux succ n y (acc ++ [y])) (S ++ R)
      = some (S ++ r) := by
  induction ys generalizing R with
  | nil =>
    simp only [List.foldlM_nil, Option.pure_def, Option.some.injEq] at hr ⊢
    rw [hr]
  | cons y ys ihy =>
    simp only [List.foldlM_cons, Option.bind_eq_bind, Option.bind_eq_some] at hr ⊢
    obtain ⟨R1, h1, h2⟩ := hr
    have hy := hys y (by simp)
    refine ⟨S ++ R1, ?_, ihy R1 (fun z hz => hys z (by simp [hz])) h2⟩
    by_cases hyR : y ∈ R
    · simp only [hyR, if_true, Option.some.injEq] at h1
      subst h1
      simp [hyR]
    · simp only [hyR, if_false] at h1
      have hyS : y ∉ S ++ R := by simp [hy.1, hyR]
      simp only [hyS, if_false, List.append_assoc]
      exact ih y (R ++ [y]) R1 hy.2 h1

theorem dfsAux_shift (succ : P → List P) (n : Nat) (S : List P) (p : P) (R r : List P)
    (hS : ∀ x ∈ S, ¬ Relation.TransGen (fun a b => b ∈ succ a) p x)
    (h : dfsAux succ n p R = some r) : dfsAux succ n p (S ++ R) = some (S ++ r) := by
  induction n generalizing p R r with
  | zero => simp [dfsAux] at h
  | succ n ih =>
    unfold dfsAux at h ⊢
    refine dfs_fold_shift succ n S ih (succ p) R r ?_ h
    intro y hy
    have hpy : Relation.TransGen (fun a b => b ∈ succ a) p y := Relation.TransGen.single hy
    refine ⟨fun hyS => hS y hyS hpy, fun x hx hyx => hS x hx (hpy.trans hyx)⟩

theorem dfsAux_eq_dfs [Fintype P] (succ : P → List P) (n : Nat) (p : P) (R : List P)
    (h : unlisted R < n) : dfsAux succ n p R = some (dfs succ p R) := by
  obtain ⟨t, ht, _⟩ := dfsAux_spec succ (unlisted R + 1) p R (Nat.lt_succ_self _)
  have h1 := dfsAux_mono succ _ (Fintype.card P + 1) p R _
    (Nat.succ_le_succ (unlisted_le_card R)) ht
  have h2 := dfsAux_mono succ _ n p R _ h ht
  unfold dfs
  rw [h1, h2]
  rfl

theorem dfs_post [Fintype P] (succ : P → List P) (p : P) (R : List P) :
    ∃ t, dfs succ p R = R ++ t ∧ DfsPost succ (succ p) R t := by
  obtain ⟨t, ht, hp⟩ := dfsAux_spec succ (unlisted R + 1) p R (Nat.lt_succ_self _)
  rw [dfsAux_eq_dfs succ _ p R (Nat.lt_succ_self _)] at ht
  exact ⟨t, Option.some.inj ht, hp⟩

theorem foldlM_eq_foldl (f : List P → P → Option (List P)) (f2 : List P → P → List P)
    (h : ∀ acc y, f acc y = some (f2 acc y)) (ys R : List P) :
    ys.foldlM f R = some (ys.foldl f2 R) := by
  induction ys generalizing R with
  | nil => rfl
  | cons y ys ih =>
    simp only [List.foldlM_cons, h, Option.bind_eq_bind, Option.some_bind, List.foldl_cons]
    exact ih _

theorem dfs_unfold [Fintype P] (succ : P → List P) (p : P) (R : List P) :
    dfs succ p R =
      (succ p).foldl (fun acc y => if y ∈ acc then acc else dfs succ y (acc ++ [y])) R := by
  have h := dfsAux_eq_dfs succ (Fintype.card P + 1) p R
    (Nat.lt_succ_of_le (unlisted_le_card R))
  unfold dfsAux at h
  rw [foldlM_eq_foldl _ (fun acc y => if y ∈ acc then acc else dfs succ y (acc ++ [y]))] at h
  · exact (Option.some.inj h).symm
  · intro acc y
    by_cases hy : y ∈ acc
    · simp [hy]
    · simp only [hy, if_false]
      exact dfsAux_eq_dfs succ _ y _
        (lt_of_lt_of_le (unlisted_append_lt acc y hy) (unlisted_le_card acc))

theorem dfs_shift [Fintype P] (succ : P → List P) (S : List P) (p : P) (R : List P)
    (hS : ∀ x ∈ S, ¬ Relation.TransGen (fun a b => b ∈ succ a) p x) :
    dfs succ p (S ++ R) = S ++ dfs succ p R := by
  have h := dfsAux_eq_dfs succ (Fintype.card P + 1) p R
    (Nat.lt_succ_of_le (unlisted_le_card R))
  have h2 := dfsAux_shift succ _ S p R _ hS h
  unfold dfs
  rw [h2, h]
  rfl

theorem foldl_skip (f : List P → P → List P) (ys R : List P)
    (h : ∀ y ∈ ys, f R y = R) : ys.foldl f R = R := by
  induction ys with
  | nil => rfl
  | cons y ys ih =>
    rw [List.foldl_cons, h y (by simp)]
    exact ih (fun z hz => h z (by simp [hz]))

theorem dfs_idem [Fintype P] (succ : P → List P) (p : P) (R : List P) :
    dfs succ p (dfs succ p R) = dfs succ p R := by
  obtain ⟨t, ht, hp⟩ := dfs_post succ p R
  rw [dfs_unfold succ p (dfs succ p R)]
  apply foldl_skip
  intro y hy
  have : y ∈ dfs succ p R := by
    rw [ht]
    exact hp.roots_in y hy
  simp [this]

theorem mem_dfs_of_closed [Fintype P] (succ : P → List P) (p : P) (R t : List P)
    (hR : ∀ z ∈ R, ∀ w ∈ succ z, w ∈ R ++ t)
    (hp : DfsPost succ (succ p) R t) (x : P)
    (hx : Relation.TransGen (fun a b => b ∈ succ a) p x) : x ∈ R ++ t := by
  induction hx with
  | single h => exact hp.roots_in _ h
  | tail _ hbc ih =>
    rcases List.mem_append.1 ih with hb | hb
    · exact hR _ hb _ hbc
    · exact hp.closed _ hb _ hbc

theorem mem_dfs_nil [Fintype P] (succ : P → List P) (p x : P) :
    x ∈ dfs succ p [] ↔ Relation.TransGen (fun a b => b ∈ succ a) p x := by
  obtain ⟨t, ht, hp⟩ := dfs_post succ p []
  constructor
  · intro hx
    rw [ht] at hx
    obtain ⟨y, hy, hyx⟩ := hp.sound x (by simpa using hx)
    exact Relation.TransGen.head' hy hyx
  · intro hx
    rw [ht]
    exact mem_dfs_of_closed succ p [] t (by simp) hp x hx

end Dfs

/-! ## The four traversals -/

section TraversalLemmas

variable {P : Type} [DecidableEq P]

theorem mem_parentsOf (g : Graph P) (x y : P) : y ∈ parentsOf g x ↔ parentStep g x y := by
  unfold parentsOf parentStep
  cases (g x).father <;> cases (g x).mother <;> simp [eq_comm]

theorem parentStep_eq (g : Graph P) : (fun a b => b ∈ parentsOf g a) = parentStep g := by
  funext a b
  exact propext (mem_parentsOf g a b)

theorem childStep_eq (g : Graph P) : (fun a b => b ∈ childrenOf g a) = childStep g := rfl

theorem dfsAux_succ (succ : P → List P) (n : Nat) (p : P) (R : List P) :
    dfsAux succ (n + 1) p R =
      (succ p).foldlM
        (fun acc y => if y ∈ acc then some acc else dfsAux succ n y (acc ++ [y])) R := rfl

theorem getAncestorsAux_eq_dfsAux (g : Graph P) (n : Nat) (p : P) (R : List P) :
    getAncestorsAux g n p R = dfsAux (parentsOf g) n p R := by
  induction n generalizing p R with
  | zero => rfl
  | succ n ih =>
    rw [dfsAux_succ]
    unfold getAncestorsAux
    cases hf : (g p).father <;> cases hm : (g p).mother
    · have hp : parentsOf g p = [] := by simp [parentsOf, hf, hm]
      rw [hp]
      rfl
    · next m =>
      have hp : parentsOf g p = [m] := by simp [parentsOf, hf, hm]
      rw [hp]
      simp only [List.foldlM_cons, List.foldlM_nil, ih]
      split_ifs <;> simp
    · next f =>
      have hp : parentsOf g p = [f] := by simp [parentsOf, hf, hm]
      rw [hp]
      simp only [List.foldlM_cons, List.foldlM_nil, ih]
      split_ifs
      · simp
      · cases dfsAux (parentsOf g) n f (R ++ [f]) <;> simp
    · next f m =>
      have hp : parentsOf g p = [f, m] := by simp [parentsOf, hf, hm]
      rw [hp]
      simp only [List.foldlM_cons, List.foldlM_nil, ih]
      split_ifs with h1
      · simp only [Option.bind_eq_bind, Option.some_bind]
        split_ifs <;> simp
      · cases dfsAux (parentsOf g) n f (R ++ [f]) with
        | none => simp
        | some r1 =>
          simp only [Option.bind_eq_bind, Option.some_bind]
          split_ifs <;> simp

theorem getDescendantsAux_eq_dfsAux (g : Graph P) (n : Nat) (p : P) (R : List P) :
    getDescendantsAux g n p R = dfsAux (childrenOf g) n p R := by
  induction n generalizing p R with
  | zero => rfl
  | succ n ih =>
    rw [dfsAux_succ]
    unfold getDescendantsAux
    have hfun : (fun acc child =>
        if child ∈ acc then some acc else getDescendantsAux g n child (acc ++ [child]))
        = (fun acc y => if y ∈ acc then some acc else dfsAux (childrenOf g) n y (acc ++ [y])) := by
      funext acc child
      rw [ih]
    rw [hfun]
    rfl

theorem getAncestors_eq_dfs [Fintype P] (g : Graph P) (p : P) (R : List P) :
    getAncestors g p R = dfs (parentsOf g) p R := by
  unfold getAncestors dfs
  rw [getAncestorsAux_eq_dfsAux]

theorem getDescendants_eq_dfs [Fintype P] (g : Graph P) (p : P) (R : List P) :
    getDescendants g p R = dfs (childrenOf g) p R := by
  unfold getDescendants dfs
  rw [getDescendantsAux_eq_dfsAux]

theorem mem_firstOcc (l : List P) (x : P) : x ∈ firstOcc l ↔ x ∈ l := by
  induction l with
  | nil => simp [firstOcc]
  | cons a l ih =>
    simp only [firstOcc, List.mem_cons, List.mem_filter, ih, decide_eq_true_eq]
    by_cases h : x = a <;> simp [h]

theorem nodup_firstOcc (l : List P) : (firstOcc l).Nodup := by
  induction l with
  | nil => simp [firstOcc]
  | cons a l ih =>
    simp only [firstOcc, List.nodup_cons, List.mem_filter, decide_eq_true_eq, ne_eq,
      not_true_eq_false, and_false, not_false_eq_true, true_and]
    exact ih.filter _

theorem firstOcc_filter (q : P → Bool) (l : List P) :
    firstOcc (l.filter q) = (firstOcc l).filter q := by
  induction l with
  | nil => simp [firstOcc]
  | cons a l ih =>
    by_cases h : q a = true
    · simp only [List.filter_cons, h, if_true, firstOcc, ih, List.filter_filter]
      congr 1
      apply List.filter_congr
      intro x _
      exact Bool.and_comm _ _
    · simp only [List.filter_cons, h, if_false, firstOcc, ih, List.filter_filter, Bool.false_eq_true]
      apply List.filter_congr
      intro x _
      by_cases hx : x = a
      · subst hx
        simp [h]
      · simp [hx]

theorem firstOcc_append (l1 l2 : List P) :
    firstOcc (l1 ++ l2) = firstOcc l1 ++ (firstOcc l2).filter (fun y => decide (y ∉ l1)) := by
  induction l1 with
  | nil => simp [firstOcc]
  | cons a l ih =>
    rw [List.cons_append, firstOcc, firstOcc, ih, List.filter_append, List.filter_filter,
      List.cons_append]
    congr 2
    apply List.filter_congr
    intro x _
    by_cases hx : x = a <;> simp [hx]

theorem appendNew_eq (self : P) (R cs : List P) :
    appendNew self R cs
      = R ++ firstOcc (cs.filter (fun x => decide (x ≠ self ∧ x ∉ R))) := by
  induction cs generalizing R with
  | nil => simp [appendNew, firstOcc]
  | cons a cs ih =>
    have hstep : appendNew self R (a :: cs)
        = appendNew self (if a ∉ R ∧ a ≠ self then R ++ [a] else R) cs := rfl
    rw [hstep]
    by_cases h : a ∉ R ∧ a ≠ self
    · rw [if_pos h, ih]
      have hq : decide (a ≠ self ∧ a ∉ R) = true := by simp [h.1, h.2]
      rw [List.filter_cons, if_pos hq, firstOcc, ← firstOcc_filter, List.filter_filter]
      simp only [List.append_assoc, List.singleton_append, List.append_cancel_left_eq,
        List.cons.injEq, true_and]
      congr 1
      apply List.filter_congr
      intro x _
      by_cases hx : x = a <;> simp [hx, and_assoc]
    · rw [if_neg h, ih]
      have hq : ¬ decide (a ≠ self ∧ a ∉ R) = true := by
        simp only [decide_eq_true_eq]
        tauto
      rw [List.filter_cons, if_neg hq]

theorem appendNew_append (self : P) (R l1 l2 : List P) :
    appendNew self (appendNew self R l1) l2 = appendNew self R (l1 ++ l2) := by
  unfold appendNew
  rw [List.foldl_append]

theorem mem_appendNew (self : P) (R cs : List P) (x : P) :
    x ∈ appendNew self R cs ↔ x ∈ R ∨ (x ∈ cs ∧ x ≠ self) := by
  rw [appendNew_eq]
  simp only [List.mem_append, mem_firstOcc, List.mem_filter, decide_eq_true_eq]
  tauto

theorem appendNew_nodup (self : P) (R cs : List P) (h : R.Nodup) :
    (appendNew self R cs).Nodup := by
  rw [appendNew_eq]
  refine List.Nodup.append h (nodup_firstOcc _) ?_
  intro x hx hx2
  rw [mem_firstOcc, List.mem_filter] at hx2
  simp only [decide_eq_true_eq] at hx2
  exact hx2.2.2 hx

theorem appendNew_of_listed (self : P) (R cs : List P)
    (h : ∀ x ∈ cs, x ≠ self → x ∈ R) : appendNew self R cs = R := by
  rw [appendNew_eq]
  have : cs.filter (fun x => decide (x ≠ self ∧ x ∉ R)) = [] := by
    rw [List.filter_eq_nil_iff]
    intro x hx
    simp only [decide_eq_true_eq, not_and, not_not]
    exact h x hx
  rw [this]
  simp [firstOcc]

theorem foldl_appendNew (self : P) (f : P → List P) (sibs R : List P) :
    sibs.foldl (fun acc s => appendNew self acc (f s)) R
      = appendNew self R (sibs.flatMap f) := by
  induction sibs generalizing R with
  | nil => rfl
  | cons s sibs ih =>
    rw [List.foldl_cons, ih, List.flatMap_cons, ← appendNew_append]

theorem getSiblings_eq_appendNew (g : Graph P) (p : P) (R : List P) :
    getSiblings g p R
      = appendNew p R (childrenOfLink g (g p).father ++ childrenOfLink g (g p).mother) := by
  rw [← appendNew_append]
  unfold getSiblings
  cases (g p).father <;> cases (g p).mother <;> rfl

theorem getCousins_eq_appendNew (g : Graph P) (p : P) (R : List P) :
    getCousins g p R
      = appendNew p R (cousinsVia g (g p).father ++ cousinsVia g (g p).mother) := by
  rw [← appendNew_append]
  have hfold : ∀ (x : P) (R0 : List P),
      (getSiblings g x []).foldl
        (fun acc sibling =>
          (g sibling).children.foldl
            (fun acc2 child => if child ∉ acc2 ∧ child ≠ p then acc2 ++ [child] else acc2)
            acc) R0
      = appendNew p R0 (cousinsVia g (some x)) := by
    intro x R0
    exact foldl_appendNew p (fun s => (g s).children) (getSiblings g x []) R0
  unfold getCousins
  cases (g p).father <;> cases (g p).mother <;> simp only [hfold] <;> rfl

theorem getSiblings_eq_spec (g : Graph P) (p : P) (R : List P) :
    getSiblings g p R = siblingsSpec g p R := by
  rw [getSiblings_eq_appendNew, appendNew_eq]
  rfl

theorem getCousins_eq_spec (g : Graph P) (p : P) (R : List P) :
    getCousins g p R = cousinsSpec g p R := by
  rw [getCousins_eq_appendNew, appendNew_eq]
  rfl

theorem dfs_root_closed [Fintype P] (succ : P → List P) (f z w : P)
    (hz : z ∈ f :: dfs succ f []) (hw : w ∈ succ z) : w ∈ f :: dfs succ f [] := by
  apply List.mem_cons_of_mem
  rw [mem_dfs_nil]
  rcases List.mem_cons.1 hz with rfl | hz
  · exact Relation.TransGen.single hw
  · exact Relation.TransGen.tail ((mem_dfs_nil succ f z).1 hz) hw

theorem dfs_new_part [Fintype P] (succ : P → List P) (R : List P) (m : P)
    (hR : ∀ z ∈ R, ∀ w ∈ succ z, w ∈ R) :
    ∃ t, dfs succ m (R ++ [m]) = R ++ m :: t ∧ t.Nodup ∧
      ∀ x, x ∈ t ↔
        (Relation.TransGen (fun a b => b ∈ succ a) m x ∧ x ∉ R ∧ x ≠ m) := by
  obtain ⟨t, ht, hp⟩ := dfs_post succ m (R ++ [m])
  refine ⟨t, by simpa using ht, hp.nodup, ?_⟩
  intro x
  constructor
  · intro hx
    obtain ⟨y, hy, hyx⟩ := hp.sound x hx
    have hfresh := hp.fresh x hx
    simp only [List.mem_append, List.mem_singleton, not_or] at hfresh
    exact ⟨Relation.TransGen.head' hy hyx, hfresh.1, hfresh.2⟩
  · rintro ⟨hx, hxR, hxm⟩
    have hmem := mem_dfs_of_closed succ m (R ++ [m]) t ?_ hp x hx
    · simp only [List.mem_append, List.mem_singleton] at hmem
      tauto
    · intro z hz w hw
      rcases List.mem_append.1 hz with hz | hz
      · simp [hR z hz w hw]
      · simp only [List.mem_singleton] at hz
        subst hz
        exact hp.roots_in w hw

theorem acyclic_iff_getAncestors [Fintype P] (g : Graph P) :
    Acyclic g ↔ ∀ x, x ∉ getAncestors g x [] := by
  unfold Acyclic
  constructor
  · intro h x hx
    rw [getAncestors_eq_dfs, mem_dfs_nil, parentStep_eq] at hx
    exact h x hx
  · intro h x hx
    apply h x
    rw [getAncestors_eq_dfs, mem_dfs_nil, parentStep_eq]
    exact hx

theorem dfs_prefix_nodup [Fintype P] (succ : P → List P) (p : P) (R : List P)
    (h : R.Nodup) : R <+: dfs succ p R ∧ (dfs succ p R).Nodup := by
  obtain ⟨t, ht, hp⟩ := dfs_post succ p R
  rw [ht]
  refine ⟨List.prefix_append R t, List.Nodup.append h hp.nodup ?_⟩
  intro x hx hxt
  exact hp.fresh x hxt hx

theorem appendNew_extends (self : P) (R cs : List P) : R <+: appendNew self R cs := by
  rw [appendNew_eq]
  exact List.prefix_append _ _

/-! ### Chains of child links -/

theorem walk_cons (g : Graph P) (p c : P) (i : Nat) (rest : List Nat)
    (h : (g p).children[i]? = some c) : walk g p (i :: rest) = walk g c rest := by
  simp only [walk, h]

theorem walk_of_reflTransGen (g : Graph P) (c x : P)
    (h : Relation.ReflTransGen (childStep g) c x) : ∃ is, walk g c is = some x := by
  induction h using Relation.ReflTransGen.head_induction_on with
  | refl => exact ⟨[], rfl⟩
  | head hac _ ih =>
    obtain ⟨is, his⟩ := ih
    obtain ⟨i, hi⟩ := List.mem_iff_getElem?.1 hac
    exact ⟨i :: is, by rw [walk_cons g _ _ i is hi, his]⟩

theorem walk_of_transGen (g : Graph P) (c x : P)
    (h : Relation.TransGen (childStep g) c x) :
    ∃ i rest, walk g c (i :: rest) = some x := by
  obtain ⟨y, hcy, hyx⟩ := Relation.TransGen.head'_iff.1 h
  obtain ⟨is, his⟩ := walk_of_reflTransGen g y x hyx
  obtain ⟨i, hi⟩ := List.mem_iff_getElem?.1 hcy
  exact ⟨i, is, by rw [walk_cons g _ _ i is hi, his]⟩

theorem mem_flatMap_dfs [Fintype P] (g : Graph P) (l : List P) (x : P) :
    x ∈ l.flatMap (fun c => c :: dfs (childrenOf g) c []) ↔
      ∃ c ∈ l, Relation.ReflTransGen (childStep g) c x := by
  simp only [List.mem_flatMap, List.mem_cons, mem_dfs_nil, childStep_eq]
  constructor
  · rintro ⟨c, hc, h | h⟩
    · exact ⟨c, hc, h ▸ Relation.ReflTransGen.refl⟩
    · exact ⟨c, hc, h.to_reflTransGen⟩
  · rintro ⟨c, hc, h⟩
    rcases Relation.reflTransGen_iff_eq_or_transGen.1 h with h | h
    · exact ⟨c, hc, Or.inl h⟩
    · exact ⟨c, hc, Or.inr h⟩

theorem tree_separates (g : Graph P) (p : P) (htree : DescendantTree g p)
    (pre post : List P) (c : P) (hch : (g p).children = pre ++ c :: post) :
    (∀ c1 ∈ pre, ∀ x, Relation.ReflTransGen (childStep g) c1 x →
      ¬ Relation.ReflTransGen (childStep g) c x) ∧
    ¬ Relation.TransGen (childStep g) c c := by
  have hc : (g p).children[pre.length]? = some c := by
    rw [hch, List.getElem?_append_right (le_refl _)]
    simp
  constructor
  · intro c1 hc1 x h1 h2
    obtain ⟨j, hj⟩ := List.mem_iff_getElem?.1 hc1
    have hjlt : j < pre.length := (List.getElem?_eq_some.1 hj).1
    have hj2 : (g p).children[j]? = some c1 := by
      rw [hch, List.getElem?_append_left hjlt, hj]
    obtain ⟨is1, his1⟩ := walk_of_reflTransGen g c1 x h1
    obtain ⟨is2, his2⟩ := walk_of_reflTransGen g c x h2
    have e := htree (j :: is1) (pre.length :: is2) x
      (by rw [walk_cons g p c1 j is1 hj2, his1]) (by rw [walk_cons g p c _ is2 hc, his2])
    have : j = pre.length := (List.cons.inj e).1
    omega
  · intro h
    obtain ⟨i, rest, hw⟩ := walk_of_transGen g c c h
    have e := htree (pre.length :: i :: rest) [pre.length] c
      (by rw [walk_cons g p c _ _ hc, hw]) (by rw [walk_cons g p c _ _ hc]; rfl)
    simp at e

theorem tree_fold [Fintype P] (g : Graph P) (p : P) (htree : DescendantTree g p)
    (post pre : List P) (hch : (g p).children = pre ++ post) :
    post.foldl
      (fun acc y => if y ∈ acc then acc else dfs (childrenOf g) y (acc ++ [y]))
      (pre.flatMap (fun c => c :: dfs (childrenOf g) c []))
    = (pre ++ post).flatMap (fun c => c :: dfs (childrenOf g) c []) := by
  induction post generalizing pre with
  | nil => simp
  | cons c post ih =>
    obtain ⟨hsep, hcyc⟩ := tree_separates g p htree pre post c hch
    have hnot : c ∉ pre.flatMap (fun c => c :: dfs (childrenOf g) c []) := by
      rw [mem_flatMap_dfs]
      rintro ⟨c1, hc1, h⟩
      exact hsep c1 hc1 c h Relation.ReflTransGen.refl
    have hshift : dfs (childrenOf g) c
        ((pre.flatMap (fun c => c :: dfs (childrenOf g) c []) ++ [c]) ++ [])
        = (pre.flatMap (fun c => c :: dfs (childrenOf g) c []) ++ [c])
          ++ dfs (childrenOf g) c [] := by
      apply dfs_shift
      intro x hx
      rw [childStep_eq]
      rcases List.mem_append.1 hx with hx | hx
      · rw [mem_flatMap_dfs] at hx
        obtain ⟨c1, hc1, h⟩ := hx
        exact fun hcx => hsep c1 hc1 x h hcx.to_reflTransGen
      · simp only [List.mem_singleton] at hx
        subst hx
        exact hcyc
    rw [List.foldl_cons, if_neg hnot]
    have hpre : pre ++ c :: post = (pre ++ [c]) ++ post := by simp
    have hacc : dfs (childrenOf g) c
        (pre.flatMap (fun c => c :: dfs (childrenOf g) c []) ++ [c])
        = (pre ++ [c]).flatMap (fun c => c :: dfs (childrenOf g) c []) := by
      rw [List.append_nil] at hshift
      rw [hshift, List.flatMap_append]
      simp
    rw [hacc, hpre]
    exact ih (pre ++ [c]) (by rw [hch]; simp)

theorem walk_reach (g : Graph P) (p d : P) (c : List Nat) (h : walk g p c = some d) :
    Relation.ReflTransGen (childStep g) p d := by
  induction c generalizing p with
  | nil =>
    simp only [walk, Option.some.injEq] at h
    subst h
    exact Relation.ReflTransGen.refl
  | cons i rest ih =>
    cases hi : (g p).children[i]? with
    | none => simp [walk, hi] at h
    | some x =>
      rw [walk_cons g p x i rest hi] at h
      exact Relation.ReflTransGen.head (List.getElem?_mem hi) (ih x h)

theorem walk_concat (g : Graph P) (p : P) (c : List Nat) (i : Nat) :
    walk g p (c ++ [i]) = (walk g p c).bind (fun x => (g x).children[i]?) := by
  induction c generalizing p with
  | nil =>
    cases hi : (g p).children[i]? <;> simp [walk, hi]
  | cons j rest ih =>
    cases hj : (g p).children[j]? with
    | none => simp [walk, hj]
    | some x =>
      rw [List.cons_append, walk_cons g p x j _ hj, walk_cons g p x j _ hj]
      exact ih x

theorem flatMap_entry_unique (f : P → List P) (l : List P)
    (hnd : (l.flatMap f).Nodup) (x1 x2 d : P) (i j : Nat)
    (h1 : x1 ∈ l) (h2 : x2 ∈ l) (hi : (f x1)[i]? = some d) (hj : (f x2)[j]? = some d) :
    x1 = x2 ∧ i = j := by
  rw [List.nodup_flatMap] at hnd
  have hx : x1 = x2 := by
    by_contra hne
    have hsymm : Symmetric (List.Disjoint on f) := fun a b hab => List.Disjoint.symm hab
    have hdis := List.Pairwise.forall hsymm hnd.2 h1 h2 hne
    exact hdis (List.getElem?_mem hi) (List.getElem?_mem hj)
  subst hx
  refine ⟨rfl, ?_⟩
  exact List.getElem?_inj (List.getElem?_eq_some.1 hi).1 (hnd.1 x1 h1) (hi.trans hj.symm)

/-- A check of `DescendantTree` that can be evaluated: `p` is not among its descendants,
and the children lists of `p` and of its descendants, put end to end, hold no person
twice. -/
theorem descendantTree_of_check [Fintype P] (g : Graph P) (p : P)
    (hp : p ∉ getDescendants g p [])
    (hnd : ((p :: getDescendants g p []).flatMap (fun x => (g x).children)).Nodup) :
    DescendantTree g p := by
  have hmem : ∀ x, x ∈ getDescendants g p [] ↔ Relation.TransGen (childStep g) p x := by
    intro x
    rw [getDescendants_eq_dfs, mem_dfs_nil, childStep_eq]
  have hin : ∀ c d, walk g p c = some d → d ∈ p :: getDescendants g p [] := by
    intro c d h
    rcases Relation.reflTransGen_iff_eq_or_transGen.1 (walk_reach g p d c h) with h | h
    · simp [h]
    · exact List.mem_cons_of_mem _ ((hmem d).2 h)
  have hchild : ∀ x ∈ p :: getDescendants g p [], ∀ d ∈ (g x).children,
      d ∈ getDescendants g p [] := by
    intro x hx d hd
    rw [hmem]
    rcases List.mem_cons.1 hx with rfl | hx
    · exact Relation.TransGen.single hd
    · exact Relation.TransGen.tail ((hmem x).1 hx) hd
  have hroot : ∀ c i, walk g p (c ++ [i]) ≠ some p := by
    intro c i h
    rw [walk_concat] at h
    obtain ⟨x, hx, hxi⟩ := Option.bind_eq_some.1 h
    exact hp (hchild x (hin c x hx) p (List.getElem?_mem hxi))
  intro c1
  induction c1 using List.reverseRecOn with
  | nil =>
    intro c2 d h1 h2
    simp only [walk, Option.some.injEq] at h1
    subst h1
    rcases List.eq_nil_or_concat c2 with rfl | ⟨c, i, rfl⟩
    · rfl
    · rw [List.concat_eq_append] at h2
      exact absurd h2 (hroot c i)
  | append_singleton c i ih =>
    intro c2 d h1 h2
    rcases List.eq_nil_or_concat c2 with rfl | ⟨c', j, rfl⟩
    · simp only [walk, Option.some.injEq] at h2
      subst h2
      exact absurd h1 (hroot c i)
    · rw [List.concat_eq_append] at h2 ⊢
      rw [walk_concat] at h1 h2
      obtain ⟨x1, hx1, hi⟩ := Option.bind_eq_some.1 h1
      obtain ⟨x2, hx2, hj⟩ := Option.bind_eq_some.1 h2
      obtain ⟨hx, hij⟩ := flatMap_entry_unique (fun x => (g x).children) _ hnd x1 x2 d i j
        (hin c x1 hx1) (hin c' x2 hx2) hi hj
      subst hx
      rw [ih c' x1 hx1 hx2, hij]

end TraversalLemmas

/-! ## The claims -/

section Claims

variable {P : Type} [DecidableEq P]

/-- C1. Edge consistency is an invariant of the reachable heaps: after any finite
sequence of `setFather`, `setMother`, `addChild`, `removeChild` and `removeAllChildren`
calls on freshly created persons, `q` is in `p.children` exactly when `p` is the father
or the mother of `q`, and no children list holds a person twice. -/
theorem C1_edge_consistency_reachable (sx : P → Sex) (nm : P → String) (ops : List (Op P)) :
    (∀ p q, q ∈ (runOps (fresh sx nm) ops p).children ↔
      ((runOps (fresh sx nm) ops q).father = some p ∨
        (runOps (fresh sx nm) ops q).mother = some p)) ∧
    (∀ p, (runOps (fresh sx nm) ops p).children.Nodup) := by
  have h := (wellFormed_iff_linkWF _).2 (runOps_linkWF ops _ (fresh_linkWF sx nm))
  exact ⟨h.2.2.1, h.2.2.2⟩

/-- C2. Role exclusivity: in every heap, `setFather(c, p)` returns success exactly when
`p` is male, and `setMother(c, p)` returns success exactly when `p` is female. -/
theorem C2_role_exclusivity (g : Graph P) (c p : P) :
    ((setFather g c p).1 = true ↔ (g p).sex = MALE) ∧
    ((setMother g c p).1 = true ↔ (g p).sex = FEMALE) := by
  constructor
  · unfold setFather
    by_cases hs : (g p).sex = MALE
    · simp only [hs, ne_eq, not_true_eq_false, if_false, iff_true]
      split_ifs <;> rfl
    · simp [hs]
  · unfold setMother
    by_cases hs : (g p).sex = FEMALE
    · simp only [hs, ne_eq, not_true_eq_false, if_false, iff_true]
      split_ifs <;> rfl
    · simp [hs]

/-- C3. Atomicity on wrong sex: `setFather` with a candidate that is not male, and
`setMother` with a candidate that is not female, return failure and leave the whole heap
as it was. -/
theorem C3_wrong_sex_unchanged (g : Graph P) (c p : P) :
    ((g p).sex ≠ MALE → setFather g c p = (false, g)) ∧
    ((g p).sex ≠ FEMALE → setMother g c p = (false, g)) := by
  constructor
  · intro hs
    simp [setFather, hs]
  · intro hs
    simp [setMother, hs]

/-- Witness of C3 on four fresh persons: a female candidate father and a male candidate
mother are both refused. -/
theorem C3_wrong_sex_unchanged_witness :
    setFather quartet 0 1 = (false, quartet) ∧ setMother quartet 0 2 = (false, quartet) :=
  ⟨(C3_wrong_sex_unchanged quartet 0 1).1 (by decide),
   (C3_wrong_sex_unchanged quartet 0 2).2 (by decide)⟩

/-- C4. Reparenting: in a well-formed heap, after `setFather(c, x)` with a male `x` the
father of `c` is `x` and `c` is in `x.children`, and a previous father different from `x`
no longer lists `c`; the same holds for `setMother` with a female `x`. -/
theorem C4_reparenting (g : Graph P) (c x : P) (h : WellFormed g) :
    ((g x).sex = MALE →
      ((setFather g c x).2 c).father = some x ∧
      c ∈ ((setFather g c x).2 x).children ∧
      ∀ f1, (g c).father = some f1 → f1 ≠ x → c ∉ ((setFather g c x).2 f1).children) ∧
    ((g x).sex = FEMALE →
      ((setMother g c x).2 c).mother = some x ∧
      c ∈ ((setMother g c x).2 x).children ∧
      ∀ m1, (g c).mother = some m1 → m1 ≠ x → c ∉ ((setMother g c x).2 m1).children) := by
  have hl := (wellFormed_iff_linkWF g).1 h
  constructor
  · intro hs
    by_cases hf : (g c).father = some x
    · have heq : setFather g c x = (true, g) := by simp [setFather, hs, hf]
      rw [heq]
      refine ⟨hf, (h.2.2.1 x c).2 (Or.inl hf), ?_⟩
      intro f1 hf1 hne
      rw [hf] at hf1
      exact absurd (Option.some.inj hf1).symm hne
    · rw [setFather_snd_eq_addChild g c x hl hs hf]
      have hp := addChild_post g x c hl
      rw [hs] at hp
      exact hp
  · intro hs
    by_cases hm : (g c).mother = some x
    · have heq : setMother g c x = (true, g) := by simp [setMother, hs, hm]
      rw [heq]
      refine ⟨hm, (h.2.2.1 x c).2 (Or.inr hm), ?_⟩
      intro m1 hm1 hne
      rw [hm] at hm1
      exact absurd (Option.some.inj hm1).symm hne
    · rw [setMother_snd_eq_addChild g c x hl hs hm]
      have hp := addChild_post g x c hl
      rw [hs] at hp
      exact hp

/-- Witness of C4: in the well-formed heap `family` (person `3` has father `0` and
mother `1`) the male `2` replaces the father `0`; the second half is exercised on
`quartet`, where the female `1` becomes the mother of `0`. -/
theorem C4_reparenting_witness :
    (((setFather family 3 2).2 3).father = some 2 ∧
      (3 : Fin 4) ∈ ((setFather family 3 2).2 2).children ∧
      ∀ f1, (family 3).father = some f1 → f1 ≠ 2 →
        (3 : Fin 4) ∉ ((setFather family 3 2).2 f1).children) ∧
    (((setMother quartet 0 1).2 0).mother = some 1 ∧
      (0 : Fin 4) ∈ ((setMother quartet 0 1).2 1).children ∧
      ∀ m1, (quartet 0).mother = some m1 → m1 ≠ 1 →
        (0 : Fin 4) ∉ ((setMother quartet 0 1).2 m1).children) :=
  ⟨(C4_reparenting family 3 2 (by decide)).1 (by decide),
   (C4_reparenting quartet 0 1 (by decide)).2 (by decide)⟩

/-- C5. Idempotent re-parenting: in a well-formed heap, for a male `f`, two calls of
`setFather(c, f)` in a row both return success and the second call returns the heap left
by the first one unchanged. -/
theorem C5_setFather_idempotent (g : Graph P) (c f : P) (h : WellFormed g)
    (hs : (g f).sex = MALE) :
    (setFather g c f).1 = true ∧
    setFather (setFather g c f).2 c f = (true, (setFather g c f).2) := by
  have hl := (wellFormed_iff_linkWF g).1 h
  by_cases hf : (g c).father = some f
  · have heq : setFather g c f = (true, g) := by simp [setFather, hs, hf]
    rw [heq]
    exact ⟨rfl, heq⟩
  · have h1 : (setFather g c f).1 = true := by rw [setFather_eq g c f hs hf]
    have hsex : ((setFather g c f).2 f).sex = MALE := by
      rw [setFather_snd_eq_addChild g c f hl hs hf, addChild_sex, hs]
    have hfa : ((setFather g c f).2 c).father = some f := by
      rw [setFather_snd_eq_addChild g c f hl hs hf]
      have hp := (addChild_post g f c hl).1
      rw [hs] at hp
      exact hp
    refine ⟨h1, ?_⟩
    generalize (setFather g c f).2 = g1 at hsex hfa
    simp [setFather, hsex, hfa]

/-- Witness of C5 on the well-formed heap `family`: person `3` gets the male `2` as
father twice. -/
theorem C5_setFather_idempotent_witness :
    (setFather family 3 2).1 = true ∧
    setFather (setFather family 3 2).2 3 2 = (true, (setFather family 3 2).2) :=
  C5_setFather_idempotent family 3 2 (by decide) (by decide)

/-- C6. Postcondition of `addChild` in a well-formed heap: the call returns success; the
link of `child` for the sex of `parent` is `parent`; `child` occurs exactly once in
`parent.children`, as its last element; a previous, different parent of that sex no
longer lists `child`; and the link of `child` for the other sex is unchanged. -/
theorem C6_addChild_post (g : Graph P) (parent child : P) (h : WellFormed g) :
    (addChild g parent child).1 = true ∧
    parentLink (g parent).sex ((addChild g parent child).2 child) = some parent ∧
    ((addChild g parent child).2 parent).children.count child = 1 ∧
    ((addChild g parent child).2 parent).children.getLast? = some child ∧
    (∀ f1, parentLink (g parent).sex (g child) = some f1 → f1 ≠ parent →
      child ∉ ((addChild g parent child).2 f1).children) ∧
    (∀ t, t ≠ (g parent).sex →
      parentLink t ((addChild g parent child).2 child) = parentLink t (g child)) := by
  have hl := (wellFormed_iff_linkWF g).1 h
  have hp := addChild_post g parent child hl
  refine ⟨addChild_fst g parent child hl, hp.1, ?_, ?_, hp.2.2, ?_⟩
  · have hnd : ((addChild g parent child).2 parent).children.Nodup :=
      (addChild_linkWF g parent child hl).2.2 parent
    exact List.count_eq_one_of_mem hnd hp.2.1
  · rw [addChild_children_self g parent child hl]
    simp
  · intro t ht
    rw [addChild_parentLink g parent child child t hl]
    simp [ht]

/-- Witness of C6 on the well-formed heap `family`: the male `2` takes over child `3`
from the father `0`. -/
theorem C6_addChild_post_witness :
    (addChild family 2 3).1 = true ∧
    parentLink (family 2).sex ((addChild family 2 3).2 3) = some 2 ∧
    ((addChild family 2 3).2 2).children.count 3 = 1 ∧
    ((addChild family 2 3).2 2).children.getLast? = some 3 ∧
    (∀ f1, parentLink (family 2).sex (family 3) = some f1 → f1 ≠ 2 →
      (3 : Fin 4) ∉ ((addChild family 2 3).2 f1).children) ∧
    (∀ t, t ≠ (family 2).sex →
      parentLink t ((addChild family 2 3).2 3) = parentLink t (family 3)) :=
  C6_addChild_post family 2 3 (by decide)

/-- C7, evaluation at the failing input. On fresh persons the first `0->addChild(3)`
succeeds and lists `3` under `0`. The second `0->addChild(3)` finds `3` already present,
yet it returns success instead of failure; the number of children stays 1. On the heap
`threeChildren` the repeated `0->addChild(1)` also returns success and moves the child
that was already listed from the front of the list to its end. -/
theorem C7_duplicate_not_rejected :
    (addChild quartet 0 3).1 = true ∧
    (3 : Fin 4) ∈ (oneChild 0).children ∧
    (addChild oneChild 0 3).1 = true ∧
    getNumChildren oneChild 0 = 1 ∧
    getNumChildren (addChild oneChild 0 3).2 0 = 1 ∧
    (threeChildren 0).children = [1, 2, 3] ∧
    (addChild threeChildren 0 1).1 = true ∧
    ((addChild threeChildren 0 1).2 0).children = [2, 3, 1] := by
  decide

/-- C8. Contract of `removeChild` in a well-formed heap: it returns success exactly when
`child` is in `parent.children`. On success `child` is no longer listed, the number of
children drops by one, the remaining children keep their order, the link of `child` for
the sex of `parent` is absent and its link for the other sex is unchanged. On failure the
heap is unchanged. -/
theorem C8_removeChild_contract (g : Graph P) (parent child : P) (h : WellFormed g) :
    ((removeChild g parent child).1 = true ↔ child ∈ (g parent).children) ∧
    (child ∈ (g parent).children →
      child ∉ ((removeChild g parent child).2 parent).children ∧
      getNumChildren (removeChild g parent child).2 parent + 1 = getNumChildren g parent ∧
      ((removeChild g parent child).2 parent).children
        = (g parent).children.filter (fun x => decide (x ≠ child)) ∧
      parentLink (g parent).sex ((removeChild g parent child).2 child) = none ∧
      ∀ t, t ≠ (g parent).sex →
        parentLink t ((removeChild g parent child).2 child) = parentLink t (g child)) ∧
    (child ∉ (g parent).children → removeChild g parent child = (false, g)) := by
  have hnd : (g parent).children.Nodup := h.2.2.2 parent
  refine ⟨?_, ?_, ?_⟩
  · rw [removeChild_eq]
    split_ifs with hm <;> simp [hm]
  · intro hm
    have hch := removeChild_children g parent child parent
    rw [if_pos rfl] at hch
    refine ⟨?_, ?_, ?_, ?_, ?_⟩
    · rw [hch]
      exact fun hc => ((List.Nodup.mem_erase_iff hnd).1 hc).1 rfl
    · unfold getNumChildren
      rw [hch, List.length_erase_of_mem hm]
      have hpos : 0 < (g parent).children.length := List.length_pos_of_mem hm
      omega
    · rw [hch, List.Nodup.erase_eq_filter hnd]
      congr 1
      funext x
      by_cases hx : x = child <;> simp [hx]
    · rw [removeChild_parentLink]
      simp [hm]
    · intro t ht
      rw [removeChild_parentLink]
      simp [ht]
  · intro hm
    rw [removeChild_eq, if_neg hm]

/-- Witness of C8 on the well-formed heap `family`: the child `3` is removed from its
father `0`, and removing `0` from `0`, which does not list it, fails. -/
theorem C8_removeChild_contract_witness :
    ((3 : Fin 4) ∉ ((removeChild family 0 3).2 0).children ∧
      getNumChildren (removeChild family 0 3).2 0 + 1 = getNumChildren family 0 ∧
      ((removeChild family 0 3).2 0).children
        = (family 0).children.filter (fun x => decide (x ≠ 3)) ∧
      parentLink (family 0).sex ((removeChild family 0 3).2 3) = none ∧
      ∀ t, t ≠ (family 0).sex →
        parentLink t ((removeChild family 0 3).2 3) = parentLink t (family 3)) ∧
    removeChild family 0 0 = (false, family) :=
  ⟨(C8_removeChild_contract family 0 3 (by decide)).2.1 (by decide),
   (C8_removeChild_contract family 0 0 (by decide)).2.2 (by decide)⟩

/-- C9. Postcondition of `removeAllChildren`, in every heap: afterwards the person has
no children and every former child has no parent link of the sex of that person. -/
theorem C9_removeAllChildren_post (g : Graph P) (p : P) :
    getNumChildren (removeAllChildren g p) p = 0 ∧
    ∀ c ∈ (g p).children, parentLink (g p).sex (removeAllChildren g p c) = none := by
  constructor
  · unfold getNumChildren
    rw [removeAllChildren_children]
    simp
  · intro c hc
    rw [removeAllChildren_parentLink]
    simp [hc]

/-- Witness of C9, the scenario with three children: after `0->removeAllChildren()` the
male `0` has no children and the former children `1`, `2`, `3` have no father. -/
theorem C9_removeAllChildren_post_witness :
    getNumChildren threeChildren 0 = 3 ∧
    getNumChildren (removeAllChildren threeChildren 0) 0 = 0 ∧
    (removeAllChildren threeChildren 0 1).father = none ∧
    (removeAllChildren threeChildren 0 2).father = none ∧
    (removeAllChildren threeChildren 0 3).father = none :=
  ⟨by decide, (C9_removeAllChildren_post threeChildren 0).1,
   (C9_removeAllChildren_post threeChildren 0).2 1 (by decide),
   (C9_removeAllChildren_post threeChildren 0).2 2 (by decide),
   (C9_removeAllChildren_post threeChildren 0).2 3 (by decide)⟩

/-- C10, evaluation at the failing input. The heap `selfFather` is well-formed, the male
`0` is its own father (so it is one of its own children) and has the mother `1`; after
`destroy(0)` the former mother `1` still lists `0` among her children. -/
theorem C10_destroy_keeps_mother_entry :
    WellFormed selfFather ∧
    (selfFather 0).father = some 0 ∧
    (selfFather 0).mother = some 1 ∧
    (destroy selfFather 0 1).children = [0] := by
  decide

/-- C11, evaluation at the failing input. In the well-formed heap `family` person `3`
has the father `0` and the mother `1`. After `destroy(0)` the remaining person `1` still
lists `3` among her children, while `3` has neither a father nor a mother: edge
consistency fails between the remaining persons `1` and `3`. -/
theorem C11_destroy_breaks_edge_consistency :
    WellFormed family ∧
    (family 3).father = some 0 ∧
    (family 3).mother = some 1 ∧
    (3 : Fin 4) ∈ (destroy family 0 1).children ∧
    (destroy family 0 3).father = none ∧
    (destroy family 0 3).mother = none := by
  decide

/-- C12, evaluation at the failing input. With a null candidate, `setFather`, `setMother`
and `addChild` read a member through the null pointer before any test: the call has no
defined result, in particular it is not a failure that leaves the heap unchanged. -/
theorem C12_null_candidate_undefined (g : Graph P) (self : P) :
    setFatherPtr g self none = none ∧
    setMotherPtr g self none = none ∧
    addChildPtr g self none = none ∧
    setFatherPtr g self none ≠ some (false, g) ∧
    setMotherPtr g self none ≠ some (false, g) ∧
    addChildPtr g self none ≠ some (false, g) := by
  refine ⟨rfl, rfl, rfl, ?_, ?_, ?_⟩ <;> simp [setFatherPtr, setMotherPtr, addChildPtr]

/-- C13. Soundness and completeness of the two recursive traversals on a heap with
finitely many persons: from the empty accumulator, `getAncestors(p)` lists exactly the
persons reached from `p` by one or more father or mother links, and `getDescendants(p)`
lists exactly the persons reached from `p` by one or more child links. -/
theorem C13_traversals_sound_complete [Fintype P] (g : Graph P) (p x : P) :
    (x ∈ getAncestors g p [] ↔ Relation.TransGen (parentStep g) p x) ∧
    (x ∈ getDescendants g p [] ↔ Relation.TransGen (childStep g) p x) := by
  constructor
  · rw [getAncestors_eq_dfs, mem_dfs_nil, parentStep_eq]
  · rw [getDescendants_eq_dfs, mem_dfs_nil, childStep_eq]

/-- C14. Father-first order of `getAncestors` in an acyclic heap, for a person `p` with
the father `f`: the result from the empty accumulator starts with `f` followed by the
whole list `getAncestors(f)`; it stops there when `p` has no mother or when the mother is
already listed; otherwise the mother comes right after, followed by a duplicate-free
list of exactly those of her ancestors that are not listed before her. In the scenario
of the specification `getAncestors(Child)` is Father, Grandfather1, Grandmother1. -/
theorem C14_father_first_order [Fintype P] (g : Graph P) (p f : P)
    (hacyc : Acyclic g) (hf : (g p).father = some f) :
    ((g p).mother = none → getAncestors g p [] = f :: getAncestors g f []) ∧
    (∀ m, (g p).mother = some m → m ∈ f :: getAncestors g f [] →
      getAncestors g p [] = f :: getAncestors g f []) ∧
    (∀ m, (g p).mother = some m → m ∉ f :: getAncestors g f [] →
      ∃ t, getAncestors g p [] = (f :: getAncestors g f []) ++ m :: t ∧ t.Nodup ∧
        ∀ x, x ∈ t ↔
          (Relation.TransGen (parentStep g) m x ∧ x ∉ f :: getAncestors g f [])) ∧
    getAncestors scenario 4 [] = [2, 0, 1] := by
  have hff : dfs (parentsOf g) f ([f] ++ []) = [f] ++ dfs (parentsOf g) f [] := by
    apply dfs_shift
    intro x hx
    simp only [List.mem_singleton] at hx
    subst hx
    rw [parentStep_eq]
    exact hacyc x
  have hff2 : dfs (parentsOf g) f [f] = f :: dfs (parentsOf g) f [] := by simpa using hff
  refine ⟨?_, ?_, ?_, by decide⟩
  · intro hm
    have hp : parentsOf g p = [f] := by simp [parentsOf, hf, hm]
    rw [getAncestors_eq_dfs, getAncestors_eq_dfs, dfs_unfold, hp]
    simp [hff2]
  · intro m hm hmem
    have hp : parentsOf g p = [f, m] := by simp [parentsOf, hf, hm]
    rw [getAncestors_eq_dfs] at hmem
    rw [getAncestors_eq_dfs, getAncestors_eq_dfs, dfs_unfold, hp]
    simp only [List.foldl_cons, List.foldl_nil, List.not_mem_nil, if_false, List.nil_append,
      hff2, hmem, if_true]
  · intro m hm hmem
    have hp : parentsOf g p = [f, m] := by simp [parentsOf, hf, hm]
    rw [getAncestors_eq_dfs] at hmem
    obtain ⟨t, ht, hnd, hmemt⟩ := dfs_new_part (parentsOf g) (f :: dfs (parentsOf g) f []) m
      (fun z hz w hw => dfs_root_closed (parentsOf g) f z w hz hw)
    refine ⟨t, ?_, hnd, ?_⟩
    · rw [getAncestors_eq_dfs, getAncestors_eq_dfs, dfs_unfold, hp]
      simp only [List.foldl_cons, List.foldl_nil, List.not_mem_nil, if_false, List.nil_append,
        hff2, hmem]
      exact ht
    · intro x
      rw [hmemt x, parentStep_eq, getAncestors_eq_dfs]
      constructor
      · exact fun h => ⟨h.1, h.2.1⟩
      · intro h
        refine ⟨h.1, h.2, ?_⟩
        rintro rfl
        exact hacyc x h.1

/-- Witness of C14 on the scenario of the specification, which is acyclic: Child (`4`)
has the father Father (`2`) and no mother; Father (`2`) has the father Grandfather1
(`0`) and the mother Grandmother1 (`1`), who is not listed before her turn. -/
theorem C14_father_first_order_witness :
    getAncestors scenario 4 [] = 2 :: getAncestors scenario 2 [] ∧
    ∃ t, getAncestors scenario 2 [] = (0 :: getAncestors scenario 0 []) ++ 1 :: t ∧ t.Nodup ∧
      ∀ x, x ∈ t ↔
        (Relation.TransGen (parentStep scenario) 1 x ∧ x ∉ 0 :: getAncestors scenario 0 []) :=
  ⟨(C14_father_first_order scenario 4 2
      ((acyclic_iff_getAncestors scenario).2 (by decide)) (by decide)).1 (by decide),
   (C14_father_first_order scenario 2 0
      ((acyclic_iff_getAncestors scenario).2 (by decide)) (by decide)).2.2.1 1
      (by decide) (by decide)⟩

/-- C15. Reference definition of `getSiblings`: for every person and accumulator the
result is the accumulator followed by the children of the father and then of the mother,
in insertion order, keeping the entries that differ from the person and are not already
listed. Hence the person itself is never appended, and a full sibling is appended
exactly once, within the entries that come from the father's list. -/
theorem C15_getSiblings_reference (g : Graph P) (p : P) (R : List P) :
    getSiblings g p R = siblingsSpec g p R ∧
    (∃ t, getSiblings g p R = R ++ t ∧ p ∉ t) ∧
    (∀ s, s ≠ p → s ∉ R →
      s ∈ childrenOfLink g (g p).father → s ∈ childrenOfLink g (g p).mother →
      (getSiblings g p R).count s = 1 ∧
      s ∈ firstOcc ((childrenOfLink g (g p).father).filter
        (fun x => decide (x ≠ p ∧ x ∉ R))) ∧
      ∃ t2, getSiblings g p R =
        (R ++ firstOcc ((childrenOfLink g (g p).father).filter
          (fun x => decide (x ≠ p ∧ x ∉ R)))) ++ t2) := by
  refine ⟨getSiblings_eq_spec g p R, ?_, ?_⟩
  · refine ⟨_, getSiblings_eq_spec g p R, ?_⟩
    rw [mem_firstOcc, List.mem_filter]
    simp
  · intro s hsp hsR hsf _
    have hs1 : s ∈ firstOcc ((childrenOfLink g (g p).father).filter
        (fun x => decide (x ≠ p ∧ x ∉ R))) := by
      rw [mem_firstOcc, List.mem_filter]
      simp [hsf, hsp, hsR]
    have heq : getSiblings g p R =
        (R ++ firstOcc ((childrenOfLink g (g p).father).filter
          (fun x => decide (x ≠ p ∧ x ∉ R)))) ++
        firstOcc ((childrenOfLink g (g p).mother).filter
          (fun x => decide (x ≠ p ∧ x ∉ appendNew p R (childrenOfLink g (g p).father)))) := by
      rw [getSiblings_eq_appendNew, ← appendNew_append, appendNew_eq p (appendNew p R _),
        appendNew_eq p R]
    refine ⟨?_, hs1, _, heq⟩
    rw [heq, List.count_append, List.count_append, List.count_eq_zero_of_not_mem hsR,
      List.count_eq_one_of_mem (nodup_firstOcc _) hs1, List.count_eq_zero_of_not_mem]
    rw [mem_firstOcc, List.mem_filter]
    simp only [decide_eq_true_eq, not_and, not_not]
    intro _ _
    rw [mem_appendNew]
    exact Or.inr ⟨hsf, hsp⟩

/-- Witness of C15 on the scenario of the specification: Mother2 (`3`) is a full sibling
of Father (`2`) and is listed once by `getSiblings(Father)`. -/
theorem C15_getSiblings_reference_witness :
    (getSiblings scenario 2 []).count 3 = 1 ∧
    (3 : Fin 6) ∈ firstOcc ((childrenOfLink scenario (scenario 2).father).filter
      (fun x => decide (x ≠ 2 ∧ x ∉ ([] : List (Fin 6))))) ∧
    ∃ t2, getSiblings scenario 2 [] =
      ([] ++ firstOcc ((childrenOfLink scenario (scenario 2).father).filter
        (fun x => decide (x ≠ 2 ∧ x ∉ ([] : List (Fin 6)))))) ++ t2 :=
  (C15_getSiblings_reference scenario 2 []).2.2 3 (by decide) (by decide) (by decide)
    (by decide)

/-- C16. Reference definition of `getCousins`: for every person and accumulator the
result is the accumulator followed by the children of the siblings of the father and
then of the siblings of the mother (siblings in the order of `getSiblings(parent, [])`,
children in insertion order), keeping the entries that differ from the person and are
not already listed. In the scenario of the specification `getCousins(Child)` is Cousin. -/
theorem C16_getCousins_reference (g : Graph P) (p : P) (R : List P) :
    getCousins g p R = cousinsSpec g p R ∧
    getCousins scenario 4 [] = [5] :=
  ⟨getCousins_eq_spec g p R, by decide⟩

/-- C17. Append-only, duplicate-free traversals: for a duplicate-free accumulator, each
of `getAncestors`, `getDescendants`, `getSiblings` and `getCousins` returns a list that
starts with the accumulator and holds no person twice, in every heap. -/
theorem C17_traversals_prefix_nodup [Fintype P] (g : Graph P) (p : P) (R : List P)
    (h : R.Nodup) :
    (R <+: getAncestors g p R ∧ (getAncestors g p R).Nodup) ∧
    (R <+: getDescendants g p R ∧ (getDescendants g p R).Nodup) ∧
    (R <+: getSiblings g p R ∧ (getSiblings g p R).Nodup) ∧
    (R <+: getCousins g p R ∧ (getCousins g p R).Nodup) := by
  refine ⟨?_, ?_, ?_, ?_⟩
  · rw [getAncestors_eq_dfs]
    exact dfs_prefix_nodup _ p R h
  · rw [getDescendants_eq_dfs]
    exact dfs_prefix_nodup _ p R h
  · rw [getSiblings_eq_appendNew]
    exact ⟨appendNew_extends _ _ _, appendNew_nodup _ _ _ h⟩
  · rw [getCousins_eq_appendNew]
    exact ⟨appendNew_extends _ _ _, appendNew_nodup _ _ _ h⟩

/-- Witness of C17 on the heap `diamond`, where both grandparents are reached from
Child (`4`) along two paths, with the accumulator holding Cousin (`5`). -/
theorem C17_traversals_prefix_nodup_witness :
    ([5] <+: getAncestors diamond 4 [5] ∧ (getAncestors diamond 4 [5]).Nodup) ∧
    ([5] <+: getDescendants diamond 4 [5] ∧ (getDescendants diamond 4 [5]).Nodup) ∧
    ([5] <+: getSiblings diamond 4 [5] ∧ (getSiblings diamond 4 [5]).Nodup) ∧
    ([5] <+: getCousins diamond 4 [5] ∧ (getCousins diamond 4 [5]).Nodup) :=
  C17_traversals_prefix_nodup diamond 4 [5] (by decide)

/-- C18. Termination of the recursive traversals on a heap with finitely many persons,
cycles included: appending a person that is not yet listed lowers the number of unlisted
persons, and with more fuel than unlisted persons (in particular with more fuel than
persons) `getAncestors` and `getDescendants` return their result for every start and
every accumulator. -/
theorem C18_traversals_terminate [Fintype P] (g : Graph P) (p : P) (R : List P) :
    (∀ y, y ∉ R → unlisted (R ++ [y]) < unlisted R) ∧
    unlisted R ≤ Fintype.card P ∧
    (∀ fuel, unlisted R < fuel →
      getAncestorsAux g fuel p R = some (getAncestors g p R) ∧
      getDescendantsAux g fuel p R = some (getDescendants g p R)) := by
  refine ⟨fun y hy => unlisted_append_lt R y hy, unlisted_le_card R, ?_⟩
  intro fuel hfuel
  rw [getAncestorsAux_eq_dfsAux, getDescendantsAux_eq_dfsAux, getAncestors_eq_dfs,
    getDescendants_eq_dfs]
  exact ⟨dfsAux_eq_dfs _ fuel p R hfuel, dfsAux_eq_dfs _ fuel p R hfuel⟩

/-- Witness of C18 on the cyclic heap `selfFather`, where the male `0` is its own
father: the traversals started at `0` return with the fuel `5`. -/
theorem C18_traversals_terminate_witness :
    unlisted ([0] : List (Fin 4)) < unlisted ([] : List (Fin 4)) ∧
    getAncestorsAux selfFather 5 0 [] = some (getAncestors selfFather 0 []) ∧
    getDescendantsAux selfFather 5 0 [] = some (getDescendants selfFather 0 []) :=
  ⟨(C18_traversals_terminate selfFather 0 []).1 0 (by decide),
   ((C18_traversals_terminate selfFather 0 []).2.2 5 (by decide)).1,
   ((C18_traversals_terminate selfFather 0 []).2.2 5 (by decide)).2⟩

/-- C19. Pre-order listing of the descendants: when the descendants of `p` form a tree,
`getDescendants(p)` from the empty accumulator is the concatenation, over the children
`c` of `p` in insertion order, of `c` followed by `getDescendants(c)`. -/
theorem C19_descendants_preorder [Fintype P] (g : Graph P) (p : P)
    (htree : DescendantTree g p) :
    getDescendants g p [] =
      (g p).children.flatMap (fun c => c :: getDescendants g c []) := by
  have hfun : (fun c => c :: getDescendants g c [])
      = (fun c => c :: dfs (childrenOf g) c []) := by
    funext c
    rw [getDescendants_eq_dfs]
  rw [hfun, getDescendants_eq_dfs, dfs_unfold]
  exact tree_fold g p htree (g p).children [] rfl

/-- Witness of C19 on the scenario of the specification: the descendants of Grandfather1
(`0`) form a tree with the children Father and Mother2, each with one child. -/
theorem C19_descendants_preorder_witness :
    getDescendants scenario 0 [] =
      (scenario 0).children.flatMap (fun c => c :: getDescendants scenario c []) :=
  C19_descendants_preorder scenario 0
    (descendantTree_of_check scenario 0 (by decide) (by decide))

/-- C20. Idempotence on the accumulator: running a traversal again on its own output
changes nothing, for each of the four traversals, in every heap; in the heap of the test
the second calls leave the sizes at 3 and 5. -/
theorem C20_traversals_idempotent [Fintype P] (g : Graph P) (p : P) (R : List P) :
    getAncestors g p (getAncestors g p R) = getAncestors g p R ∧
    getDescendants g p (getDescendants g p R) = getDescendants g p R ∧
    getSiblings g p (getSiblings g p R) = getSiblings g p R ∧
    getCousins g p (getCousins g p R) = getCousins g p R ∧
    (getAncestors testHeap 4 (getAncestors testHeap 4 [])).length = 3 ∧
    (getDescendants testHeap 0 (getDescendants testHeap 0 [])).length = 5 := by
  have ha : ∀ (h : Graph P) (q : P) (S : List P),
      getAncestors h q (getAncestors h q S) = getAncestors h q S := by
    intro h q S
    rw [getAncestors_eq_dfs, getAncestors_eq_dfs]
    exact dfs_idem _ q S
  refine ⟨ha g p R, ?_, ?_, ?_, ?_, ?_⟩
  · rw [getDescendants_eq_dfs, getDescendants_eq_dfs]
    exact dfs_idem _ p R
  · rw [getSiblings_eq_appendNew, getSiblings_eq_appendNew]
    apply appendNew_of_listed
    intro x hx hxp
    rw [mem_appendNew]
    exact Or.inr ⟨hx, hxp⟩
  · rw [getCousins_eq_appendNew, getCousins_eq_appendNew]
    apply appendNew_of_listed
    intro x hx hxp
    rw [mem_appendNew]
    exact Or.inr ⟨hx, hxp⟩
  · decide
  · decide

end Claims

end FamilyTree
